import Mathlib

/-!
Shallow embedding of the chess rules engine in `src/pychess.py`.

Conventions of the embedding:
* A Python spot string such as `"e4"` is the pair of its file index and rank
  index (`Delta.f2i` / `Delta.r2i` in the source): `e4` is `⟨4, 3⟩`.
* A Python piece string such as `"wp"` is a `Piece` (color, kind); the
  absent-key result `"empty"` of `Board.__getitem__` is `none`.
* `piecemap` is the dict `Board.piecemap`, embedded as a function
  `Spot → Option Piece`; `_positions` iterates the 64 squares in board order
  (Python iterates dict insertion order; no specified behaviour depends on
  the order).
* Python exceptions that `make_move` can raise (`KeyError` on a missing
  dict key, `IndexError` on `promote[0]`) are modelled by an `Option`
  result: `none` is "raises".  `is_positional_check` of a side with no king
  raises `IndexError` in Python; the embedding returns `false` there, and
  every theorem that could be affected assumes the king exists.
* Python moves are tuples of length 2 or 3; a `Move` here always carries an
  `Option Kind` promotion field, `none` for the 2-tuples.
* The mutual recursion `is_attacked` ↔ castling block of `_positional_moves`
  is embedded with an explicit recursion depth (`genF fuel`); `fuel = 2`
  (`positional_moves`) is the value the source computes, and the
  stabilisation theorem for fuel ≥ 2 is the termination argument.
-/

inductive Color where
  | w
  | b
deriving DecidableEq, Repr

def Color.other : Color → Color
  | .w => .b
  | .b => .w

inductive Kind where
  | p
  | n
  | b
  | r
  | q
  | k
deriving DecidableEq, Repr

structure Piece where
  color : Color
  kind : Kind
deriving DecidableEq, Repr

structure Spot where
  f : Nat
  r : Nat
deriving DecidableEq, Repr

structure Move where
  from_ : Spot
  to_ : Spot
  promote : Option Kind
deriving DecidableEq, Repr

structure Delta where
  df : Int
  dr : Int
deriving DecidableEq, Repr

def Delta.mul (d : Delta) (m : Int) : Delta := ⟨d.df * m, d.dr * m⟩

/-- `Delta.from_`: translate a spot by the delta; `none` models the
`IndexError` raised when the result leaves the 8×8 grid. -/
def Delta.from_ (d : Delta) (spot : Spot) : Option Spot :=
  if 0 ≤ (spot.f : Int) + d.df ∧ (spot.f : Int) + d.df < 8 ∧
      0 ≤ (spot.r : Int) + d.dr ∧ (spot.r : Int) + d.dr < 8 then
    some ⟨((spot.f : Int) + d.df).toNat, ((spot.r : Int) + d.dr).toNat⟩
  else none

abbrev PieceMap := Spot → Option Piece

def pmSet (pm : PieceMap) (s : Spot) (pc : Piece) : PieceMap :=
  fun s' => if s' = s then some pc else pm s'

def pmErase (pm : PieceMap) (s : Spot) : PieceMap :=
  fun s' => if s' = s then none else pm s'

/-- Python `del d[k]`: removes the key, raising (`none`) when absent. -/
def pmDel (pm : PieceMap) (s : Spot) : Option PieceMap :=
  match pm s with
  | some _ => some (pmErase pm s)
  | none => none

structure Board where
  piecemap : PieceMap
  enpassant : Option (Spot × Spot)
  castle_x : List Spot
  history : List Move

def CASTLE_SPOTS : List Spot := [⟨0, 0⟩, ⟨4, 0⟩, ⟨7, 0⟩, ⟨0, 7⟩, ⟨4, 7⟩, ⟨7, 7⟩]

/-- The back-rank piece at file `f` (`ChessPiece.backfile = "rnbqkbnr"`). -/
def backfile : Nat → Kind
  | 0 => .r
  | 1 => .n
  | 2 => .b
  | 3 => .q
  | 4 => .k
  | 5 => .b
  | 6 => .n
  | _ => .r

/-- `Board.default_board`: ranks 1-2 white, 7-8 black, back rank rnbqkbnr. -/
def Board.default_board : Board :=
  { piecemap := fun s =>
      if s.f < 8 then
        if s.r = 0 then some ⟨.w, backfile s.f⟩
        else if s.r = 1 then some ⟨.w, .p⟩
        else if s.r = 6 then some ⟨.b, .p⟩
        else if s.r = 7 then some ⟨.b, backfile s.f⟩
        else none
      else none
    enpassant := none
    castle_x := []
    history := [] }

def allSpots : List Spot :=
  (List.range 8).flatMap fun r => (List.range 8).map fun f => ⟨f, r⟩

/-- `Board._positions`: the squares holding a piece of the given color. -/
def Board.positions (bd : Board) (who : Color) : List (Spot × Piece) :=
  allSpots.filterMap fun s =>
    match bd.piecemap s with
    | some pc => if pc.color = who then some (s, pc) else none
    | none => none

/-- `Board.who`: white moves on even ply counts. -/
def Board.who (bd : Board) : Color := if bd.history.length % 2 = 0 then .w else .b

/-- The pawn rank-direction map `{"b": -1, "w": 1}`. -/
def pawnDr : Color → Int
  | .w => 1
  | .b => -1

/-- The pawn home-rank map `{"b": "7", "w": "2"}` as a rank index. -/
def homeRank : Color → Nat
  | .w => 1
  | .b => 6

/-- The king home-square map `{"w": "e1", "b": "e8"}`. -/
def kSpot : Color → Spot
  | .w => ⟨4, 0⟩
  | .b => ⟨4, 7⟩

/-- `Board.make_move`.  `none` models the exceptions Python can raise
(missing `from_` key, missing castling rook, missing en-passant pawn,
`promote[0]` on a promotion move without a promotion kind, missing
`from_` key at the final `del`). -/
def Board.make_move (bd : Board) (fromto : Move) (ignore_promote : Bool) : Option Board :=
  let plynow := bd.who
  let pawn_dr := pawnDr plynow
  match bd.piecemap fromto.from_ with
  | none => none
  | some piece0 =>
    let k_spot := kSpot plynow
    let step1 : Option PieceMap :=
      if piece0.kind = .k ∧ fromto.from_ = k_spot then
        if fromto.to_.f = 6 then
          match bd.piecemap ⟨7, fromto.to_.r⟩ with
          | some rk => some (pmErase (pmSet bd.piecemap ⟨5, fromto.to_.r⟩ rk) ⟨7, fromto.to_.r⟩)
          | none => none
        else if fromto.to_.f = 2 then
          match bd.piecemap ⟨0, fromto.to_.r⟩ with
          | some rk => some (pmErase (pmSet bd.piecemap ⟨3, fromto.to_.r⟩ rk) ⟨0, fromto.to_.r⟩)
          | none => none
        else some bd.piecemap
      else some bd.piecemap
    match step1 with
    | none => none
    | some pm1 =>
      let step2 : Option PieceMap :=
        match bd.enpassant with
        | some eppair =>
          if piece0.kind = .p ∧ fromto.to_ = eppair.1 then pmDel pm1 eppair.2 else some pm1
        | none => some pm1
      match step2 with
      | none => none
      | some pm2 =>
        let pieceRes : Option Piece :=
          if ¬ignore_promote = true ∧ piece0.kind = .p ∧ (fromto.to_.r = 0 ∨ fromto.to_.r = 7) then
            match fromto.promote with
            | some pk => some ⟨piece0.color, pk⟩
            | none => none
          else some piece0
        match pieceRes with
        | none => none
        | some piece =>
          match pmDel (pmSet pm2 fromto.to_ piece) fromto.from_ with
          | none => none
          | some pm3 =>
            let newEp : Option (Spot × Spot) :=
              if piece.kind = .p ∧ fromto.from_.r = homeRank plynow ∧
                  (Delta.mk 0 (pawn_dr * 2)).from_ fromto.from_ = some fromto.to_ then
                ((Delta.mk 0 pawn_dr).from_ fromto.from_).map fun sq => (sq, fromto.to_)
              else none
            let newCastle : List Spot :=
              if fromto.from_ ∈ CASTLE_SPOTS ∧ fromto.from_ ∉ bd.castle_x then
                fromto.from_ :: bd.castle_x
              else bd.castle_x
            some { piecemap := pm3
                   enpassant := newEp
                   castle_x := newCastle
                   history := bd.history ++ [fromto] }

def d_straight : List Delta := [⟨0, 1⟩, ⟨1, 0⟩, ⟨0, -1⟩, ⟨-1, 0⟩]

def d_diag : List Delta := [⟨1, 1⟩, ⟨1, -1⟩, ⟨-1, -1⟩, ⟨-1, 1⟩]

def d_knight : List Delta :=
  [⟨2, 1⟩, ⟨2, -1⟩, ⟨1, 2⟩, ⟨-1, 2⟩, ⟨-2, -1⟩, ⟨-2, 1⟩, ⟨-1, -2⟩, ⟨1, -2⟩]

/-- The direction table of `_positional_moves` / `_attacked_positions`. -/
def pieceDirs : Kind → List Delta
  | .r => d_straight
  | .b => d_diag
  | .q => d_straight ++ d_diag
  | .k => d_straight ++ d_diag
  | .n => d_knight
  | .p => []

/-- One sliding ray: `for i in range(1, distance)` with the stop/capture
logic of the source; `steps` counts the indices left, `i` is the current
multiplier. -/
def rayDests (bd : Board) (plynow : Color) (spot : Spot) (dd : Delta) : Nat → Nat → List Spot
  | 0, _ => []
  | steps + 1, i =>
    match (dd.mul (i : Int)).from_ spot with
    | none => []
    | some spot2 =>
      match bd.piecemap spot2 with
      | none => spot2 :: rayDests bd plynow spot dd steps (i + 1)
      | some pc => if pc.color = plynow.other then [spot2] else []

/-- The pawn branch of `_positional_moves` for one `df ∈ {-1, 0, 1}`. -/
def pawnDfMoves (bd : Board) (piece : Piece) (spot : Spot) (df : Int) : List Move :=
  match (Delta.mk df (pawnDr piece.color)).from_ spot with
  | none => []
  | some spot2 =>
    if df = 0 then
      if bd.piecemap spot2 = none then
        Move.mk spot spot2 none ::
          (if spot.r = homeRank piece.color then
            match (Delta.mk df (pawnDr piece.color * 2)).from_ spot with
            | none => []
            | some spot3 =>
              if bd.piecemap spot3 = none then [Move.mk spot spot3 none] else []
          else [])
      else []
    else
      if (bd.piecemap spot2).any (fun pc2 => pc2.color == piece.color.other) ||
          some spot2 == (bd.enpassant.map fun eppair => eppair.1) then
        [Move.mk spot spot2 none]
      else []

/-- Kingside castling block of `_positional_moves`:
`lineup = [(Delta(1,0) * i).from_(spot) for i in range(4)]` -- the
comprehension raises out of the block when any translation is out of
bounds, so the block yields nothing then. -/
def castleKingside (bd : Board) (plyother : Color) (isAtt : Spot → Color → Bool)
    (spot : Spot) : List Move :=
  match ((Delta.mk 1 0).mul 0).from_ spot, ((Delta.mk 1 0).mul 1).from_ spot,
      ((Delta.mk 1 0).mul 2).from_ spot, ((Delta.mk 1 0).mul 3).from_ spot with
  | some s0, some s1, some s2, some s3 =>
    if (bd.piecemap s3).any (fun pc => pc.kind == Kind.r) && !(bd.castle_x.contains s3) &&
        (bd.piecemap s1).isNone && (bd.piecemap s2).isNone then
      if !(isAtt s0 plyother || isAtt s1 plyother || isAtt s2 plyother) then
        [Move.mk spot s2 none]
      else []
    else []
  | _, _, _, _ => []

/-- Queenside castling block of `_positional_moves`:
`lineup = [(Delta(-1,0) * i).from_(spot) for i in range(5)]`. -/
def castleQueenside (bd : Board) (plyother : Color) (isAtt : Spot → Color → Bool)
    (spot : Spot) : List Move :=
  match ((Delta.mk (-1) 0).mul 0).from_ spot, ((Delta.mk (-1) 0).mul 1).from_ spot,
      ((Delta.mk (-1) 0).mul 2).from_ spot, ((Delta.mk (-1) 0).mul 3).from_ spot,
      ((Delta.mk (-1) 0).mul 4).from_ spot with
  | some s0, some s1, some s2, some s3, some s4 =>
    if (bd.piecemap s4).any (fun pc => pc.kind == Kind.r) && !(bd.castle_x.contains s4) &&
        (bd.piecemap s1).isNone && (bd.piecemap s2).isNone && (bd.piecemap s3).isNone then
      if !(isAtt s0 plyother || isAtt s1 plyother || isAtt s2 plyother) then
        [Move.mk spot s2 none]
      else []
    else []
  | _, _, _, _, _ => []

/-- The `attacking == None or attacking[1] == k_spot[1]` guard. -/
def attackingOK (attacking : Option Spot) (k_spot : Spot) : Bool :=
  match attacking with
  | none => true
  | some a => a.r == k_spot.r

/-- All moves `_positional_moves` yields for one `(spot, piece)` pair. -/
def movesOfPiece (bd : Board) (plynow plyother : Color) (attacking : Option Spot)
    (isAtt : Spot → Color → Bool) (spot : Spot) (piece : Piece) : List Move :=
  if piece.kind = .p then
    pawnDfMoves bd piece spot (-1) ++ pawnDfMoves bd piece spot 0 ++ pawnDfMoves bd piece spot 1
  else
    (((pieceDirs piece.kind).flatMap fun dd =>
        rayDests bd plynow spot dd
          ((if piece.kind = Kind.k ∨ piece.kind = Kind.n then 2 else 8) - 1) 1).map
      fun s2 => Move.mk spot s2 none) ++
    (if piece.kind = .k ∧ spot = kSpot plynow ∧ spot ∉ bd.castle_x ∧
         attackingOK attacking (kSpot plynow) = true then
       castleKingside bd plyother isAtt spot ++ castleQueenside bd plyother isAtt spot
     else [])

/-- `_positional_moves` with the attack oracle supplied as a parameter. -/
def positionalMovesCore (bd : Board) (plynow plyother : Color) (attacking : Option Spot)
    (isAtt : Spot → Color → Bool) : List Move :=
  (bd.positions plynow).flatMap fun sp =>
    movesOfPiece bd plynow plyother attacking isAtt sp.1 sp.2

/-- `_positional_moves` with an explicit depth for the mutual recursion with
`is_attacked`.  At fuel 0 the castling block is disabled (its attack tests
all answer `true`). -/
def genF : Nat → Board → Color → Option Spot → List Move
  | 0, bd, who, attacking =>
    positionalMovesCore bd who who.other attacking fun _ _ => true
  | fuel + 1, bd, who, attacking =>
    positionalMovesCore bd who who.other attacking fun s c =>
      (genF fuel bd c (some s)).any fun m => m.to_ == s

/-- `Board._positional_moves`: the recursion depth 2 is enough (the
stabilisation theorem below). -/
def Board.positional_moves (bd : Board) (who : Color) (attacking : Option Spot) : List Move :=
  genF 2 bd who attacking

/-- `Board.is_attacked`. -/
def Board.is_attacked (bd : Board) (spot : Spot) (who : Color) : Bool :=
  (bd.positional_moves who (some spot)).any fun m => m.to_ == spot

/-- `is_attacked` at an explicit recursion depth. -/
def is_attackedF (fuel : Nat) (bd : Board) (spot : Spot) (who : Color) : Bool :=
  (genF fuel bd who (some spot)).any fun m => m.to_ == spot

/-- The king square of `is_positional_check`
(`[s for s, p in self._positions(who) if p[1] == "k"][0]`). -/
def Board.king_spot (bd : Board) (who : Color) : Option Spot :=
  ((bd.positions who).find? fun sp => sp.2.kind == Kind.k).map fun sp => sp.1

/-- `Board.is_positional_check`; Python raises `IndexError` when `who` has
no king, modelled as `false`. -/
def Board.is_positional_check (bd : Board) (who : Color) : Bool :=
  match bd.king_spot who with
  | some ks => bd.is_attacked ks who.other
  | none => false

/-- The check-safety test of `legal_moves`:
`not self.make_move(candidate, ignore_promote=True).is_positional_check(plynow)`.
A failing `make_move` (impossible for generated candidates on boards whose
en-passant pair names a real enemy piece) counts as unsafe. -/
def Board.checkSafe (bd : Board) (candidate : Move) : Bool :=
  match bd.make_move candidate true with
  | some chboard => !chboard.is_positional_check bd.who
  | none => false

/-- The promotion expansion of `legal_moves`: a surviving pawn move to the
last rank becomes four moves, promotion order `"qbnr"`. -/
def promoteExpand (bd : Board) (candidate : Move) : List Move :=
  if (bd.piecemap candidate.from_).any (fun pc => pc.kind == Kind.p) &&
      (candidate.to_.r == 0 || candidate.to_.r == 7) then
    [{ candidate with promote := some .q }, { candidate with promote := some .b },
     { candidate with promote := some .n }, { candidate with promote := some .r }]
  else [candidate]

/-- `Board.legal_moves`. -/
def Board.legal_moves (bd : Board) : List Move :=
  (bd.positional_moves bd.who none).flatMap fun candidate =>
    if bd.checkSafe candidate then promoteExpand bd candidate else []

/-- Perft: the number of leaf positions after `depth` plies of legal moves
(`deeplook` counts the same boards). -/
def perft : Nat → Board → Nat
  | 0, _ => 1
  | depth + 1, bd =>
    (bd.legal_moves.map fun m =>
      match bd.make_move m false with
      | some b2 => perft depth b2
      | none => 0).sum

/-- `Board._attacked_positions`: the "attack mode" squares used by the
weighting heuristic; pawns yield their two forward diagonals regardless of
occupancy, and there is no castling block. -/
def Board.attacked_positions (bd : Board) (who : Color) : List Spot :=
  (bd.positions who).flatMap fun sp =>
    if sp.2.kind = .p then
      [(-1 : Int), 1].filterMap fun df => (Delta.mk df (pawnDr sp.2.color)).from_ sp.1
    else
      (pieceDirs sp.2.kind).flatMap fun dd =>
        rayDests bd who sp.1 dd ((if sp.2.kind = Kind.k ∨ sp.2.kind = Kind.n then 2 else 8) - 1) 1

inductive InterpretationError where
  | invalid_ply (pgn : String)
  | wrong_count (count : Nat) (found : List Move)
  | not_valid (move : Move)
deriving DecidableEq, Repr

/-- Piece letters `[RNBQK]` of the notation grammar. -/
def charPiece : Char → Option Kind
  | 'R' => some .r
  | 'N' => some .n
  | 'B' => some .b
  | 'Q' => some .q
  | 'K' => some .k
  | _ => none

def charFile (c : Char) : Option Nat :=
  if 'a' ≤ c ∧ c ≤ 'h' then some (c.toNat - 'a'.toNat) else none

/-- The origin-hint rank class is `[0-8]`; the raw digit is kept ('0' can
never match a real rank). -/
def charDigit08 (c : Char) : Option Nat :=
  if '0' ≤ c ∧ c ≤ '8' then some (c.toNat - '0'.toNat) else none

def charRank18 (c : Char) : Option Nat :=
  if '1' ≤ c ∧ c ≤ '8' then some (c.toNat - '1'.toNat) else none

/-- Ordered-alternative choice, the backtracking of `re.match`. -/
def firstSome {α β : Type} (alts : List α) (k : α → Option β) : Option β :=
  match alts with
  | [] => none
  | a :: rest =>
    match k a with
    | some bb => some bb
    | none => firstSome rest k

/-- Alternatives of `([RNBQK]|)`, greedy first. -/
def g1Alts (cs : List Char) : List (Option Kind × List Char) :=
  (match cs with
   | c :: rest =>
     match charPiece c with
     | some pk => [(some pk, rest)]
     | none => []
   | [] => []) ++ [(none, cs)]

/-- Alternatives of one optional character class, greedy first. -/
def optCharAlts (cls : Char → Option Nat) (cs : List Char) : List (Option Nat × List Char) :=
  (match cs with
   | c :: rest =>
     match cls c with
     | some v => [(some v, rest)]
     | none => []
   | [] => []) ++ [(none, cs)]

/-- Alternatives of `(x|)`, greedy first. -/
def g3Alts (cs : List Char) : List (List Char) :=
  (match cs with
   | 'x' :: rest => [rest]
   | _ => []) ++ [cs]

/-- The mandatory destination `([a-h][1-8])`. -/
def parseDest (cs : List Char) : Option (Spot × List Char) :=
  match cs with
  | c1 :: c2 :: rest =>
    match charFile c1, charRank18 c2 with
    | some f, some r => some (⟨f, r⟩, rest)
    | _, _ => none
  | _ => none

/-- The optional promotion `(=[QRNB]|)`; whatever follows is the comment
`([+!?]*)` and trailing text, which `re.match` never rejects. -/
def parsePromo (cs : List Char) : Option Kind :=
  match cs with
  | '=' :: c :: _ =>
    match c with
    | 'Q' => some .q
    | 'R' => some .r
    | 'N' => some .n
    | 'B' => some .b
    | _ => none
  | _ => none

structure ParsedPly where
  ptype : Kind
  hintF : Option Nat
  hintR : Option Nat
  dest : Spot
  promotion : Option Kind
deriving DecidableEq, Repr

/-- The regex `([RNBQK]|)([a-h]?[0-8]?)(x|)([a-h][1-8])(=[QRNB]|)([+!?]*)`
applied with `re.match` (anchored at the start only), including its
backtracking order. -/
def parsePgn (pgn : String) : Option ParsedPly :=
  firstSome (g1Alts pgn.toList) fun g1 =>
    firstSome (optCharAlts charFile g1.2) fun hf =>
      firstSome (optCharAlts charDigit08 hf.2) fun hr =>
        firstSome (g3Alts hr.2) fun cs4 =>
          (parseDest cs4).map fun dst =>
            { ptype := g1.1.getD Kind.p
              hintF := hf.1
              hintR := hr.1
              dest := dst.1
              promotion := parsePromo dst.2 }

/-- The origin-hint test `spot1 in m[0]` (substring of the two-character
spot text).  File letters and rank digits are disjoint alphabets, so a
one-character hint matches iff it equals the corresponding coordinate; a
two-character hint must equal the whole spot text. -/
def hintMatches (hf hr : Option Nat) (sp : Spot) : Bool :=
  match hf, hr with
  | none, none => true
  | some f, none => f == sp.f
  | none, some d => d == sp.r + 1
  | some f, some d => f == sp.f && d == sp.r + 1

/-- The candidate list of `Board.interpret` for a parsed ply: spots of
`who`'s pieces of the stated kind whose move to the destination (with the
parsed promotion) is legal, filtered by the origin hint. -/
def Board.pgn_matches (bd : Board) (who : Color) (pp : ParsedPly) : List Move :=
  let moves := bd.legal_moves
  let potential : List Spot :=
    (bd.positions who).filterMap fun sp => if sp.2.kind == pp.ptype then some sp.1 else none
  let matches0 := potential.filterMap fun sp1 =>
    let mv : Move := ⟨sp1, pp.dest, pp.promotion⟩
    if moves.contains mv then some mv else none
  matches0.filter fun m => hintMatches pp.hintF pp.hintR m.from_

/-- The backrank map `{"w": "1", "b": "8"}` of `Board.interpret`. -/
def backrankOf : Color → Nat
  | .w => 0
  | .b => 7

/-- The `result` computation of `Board.interpret` (everything before the
final membership re-validation; an exception is an `.error`). -/
def interpretResultE (bd : Board) (who : Color) (pgn : String) :
    Except InterpretationError Move :=
  if pgn = "O-O" then .ok ⟨⟨4, backrankOf who⟩, ⟨6, backrankOf who⟩, none⟩
  else if pgn = "O-O-O" then .ok ⟨⟨4, backrankOf who⟩, ⟨2, backrankOf who⟩, none⟩
  else
    match parsePgn pgn with
    | none => .error (.invalid_ply pgn)
    | some pp =>
      match bd.pgn_matches who pp with
      | [m] => .ok m
      | ms => .error (.wrong_count ms.length ms)

/-- `Board.interpret`. -/
def Board.interpret (bd : Board) (who : Color) (pgn : String) :
    Except InterpretationError Move :=
  match interpretResultE bd who pgn with
  | .error e => .error e
  | .ok result =>
    if bd.legal_moves.contains result then .ok result
    else .error (.not_valid result)

/-! ## Basic lemmas about the square list and `positions` -/

theorem mem_allSpots {s : Spot} : s ∈ allSpots ↔ s.f < 8 ∧ s.r < 8 := by
  cases s with
  | mk f r =>
    simp only [allSpots, List.mem_flatMap, List.mem_map, List.mem_range, Spot.mk.injEq]
    constructor
    · rintro ⟨r', hr', f', hf', hfe, hre⟩
      subst hfe; subst hre; exact ⟨hf', hr'⟩
    · rintro ⟨hf, hr⟩
      exact ⟨r, hr, f, hf, rfl, rfl⟩

theorem allSpots_nodup : allSpots.Nodup := by decide

theorem mem_positions {bd : Board} {who : Color} {s : Spot} {pc : Piece} :
    (s, pc) ∈ bd.positions who ↔
      s.f < 8 ∧ s.r < 8 ∧ bd.piecemap s = some pc ∧ pc.color = who := by
  simp only [Board.positions, List.mem_filterMap]
  constructor
  · rintro ⟨a, ha, h⟩
    cases hpm : bd.piecemap a with
    | none => rw [hpm] at h; exact absurd h (by simp)
    | some pc' =>
      rw [hpm] at h
      by_cases hc : pc'.color = who
      · simp only [hc, if_pos, Prod.mk.injEq] at h
        rcases h with ⟨rfl, rfl⟩
        rcases mem_allSpots.mp ha with ⟨h1, h2⟩
        exact ⟨h1, h2, hpm, hc⟩
      · simp only [hc, if_neg, if_false] at h
        exact absurd h (by simp)
  · rintro ⟨h1, h2, hpm, hc⟩
    exact ⟨s, mem_allSpots.mpr ⟨h1, h2⟩, by rw [hpm]; simp [hc]⟩

theorem positions_map_fst {bd : Board} {who : Color} :
    (bd.positions who).map Prod.fst =
      allSpots.filter fun s =>
        match bd.piecemap s with
        | some pc => pc.color == who
        | none => false := by
  simp only [Board.positions]
  induction allSpots with
  | nil => rfl
  | cons a l ih =>
    simp only [List.filterMap_cons, List.filter_cons]
    cases hpm : bd.piecemap a with
    | none => simpa using ih
    | some pc =>
      by_cases hc : pc.color = who
      · simp [hc, ih]
      · simp [hc, ih]

theorem positions_fst_nodup {bd : Board} {who : Color} :
    ((bd.positions who).map Prod.fst).Nodup := by
  rw [positions_map_fst]
  exact allSpots_nodup.filter _

/-! ## Shape lemmas for the move generator -/

theorem mem_pawnDfMoves_shape {bd : Board} {piece : Piece} {spot : Spot} {df : Int} {m : Move}
    (h : m ∈ pawnDfMoves bd piece spot df) : m.from_ = spot ∧ m.promote = none := by
  simp only [pawnDfMoves] at h
  rcases hft : (Delta.mk df (pawnDr piece.color)).from_ spot with _ | spot2
  · simp only [hft] at h
    exact absurd h (by simp)
  · simp only [hft] at h
    by_cases hdf : df = 0
    · rw [if_pos hdf] at h
      by_cases he : bd.piecemap spot2 = none
      · rw [if_pos he] at h
        rcases List.mem_cons.mp h with rfl | h
        · exact ⟨rfl, rfl⟩
        · by_cases hr : spot.r = homeRank piece.color
          · rw [if_pos hr] at h
            rcases hft2 : (Delta.mk df (pawnDr piece.color * 2)).from_ spot with _ | spot3
            · simp only [hft2] at h
              exact absurd h (by simp)
            · simp only [hft2] at h
              by_cases he2 : bd.piecemap spot3 = none
              · rw [if_pos he2] at h
                rcases List.mem_singleton.mp h with rfl
                exact ⟨rfl, rfl⟩
              · rw [if_neg he2] at h
                exact absurd h (by simp)
          · rw [if_neg hr] at h
            exact absurd h (by simp)
      · rw [if_neg he] at h
        exact absurd h (by simp)
    · rw [if_neg hdf] at h
      split at h
      · rcases List.mem_singleton.mp h with rfl
        exact ⟨rfl, rfl⟩
      · exact absurd h (by simp)

theorem mem_castleKingside_shape {bd : Board} {plyother : Color} {isAtt : Spot → Color → Bool}
    {spot : Spot} {m : Move} (h : m ∈ castleKingside bd plyother isAtt spot) :
    m.from_ = spot ∧ m.promote = none := by
  unfold castleKingside at h
  split at h
  · split at h
    · split at h
      · rcases List.mem_singleton.mp h with rfl
        exact ⟨rfl, rfl⟩
      · exact absurd h (by simp)
    · exact absurd h (by simp)
  · exact absurd h (by simp)

theorem mem_castleQueenside_shape {bd : Board} {plyother : Color} {isAtt : Spot → Color → Bool}
    {spot : Spot} {m : Move} (h : m ∈ castleQueenside bd plyother isAtt spot) :
    m.from_ = spot ∧ m.promote = none := by
  unfold castleQueenside at h
  split at h
  · split at h
    · split at h
      · rcases List.mem_singleton.mp h with rfl
        exact ⟨rfl, rfl⟩
      · exact absurd h (by simp)
    · exact absurd h (by simp)
  · exact absurd h (by simp)

theorem mem_movesOfPiece_shape {bd : Board} {plynow plyother : Color} {attacking : Option Spot}
    {isAtt : Spot → Color → Bool} {spot : Spot} {piece : Piece} {m : Move}
    (h : m ∈ movesOfPiece bd plynow plyother attacking isAtt spot piece) :
    m.from_ = spot ∧ m.promote = none := by
  unfold movesOfPiece at h
  split at h
  · rcases List.mem_append.mp h with h | h
    · rcases List.mem_append.mp h with h | h
      · exact mem_pawnDfMoves_shape h
      · exact mem_pawnDfMoves_shape h
    · exact mem_pawnDfMoves_shape h
  · rcases List.mem_append.mp h with h | h
    · rcases List.mem_map.mp h with ⟨s2, _, rfl⟩
      exact ⟨rfl, rfl⟩
    · split at h
      · rcases List.mem_append.mp h with h | h
        · exact mem_castleKingside_shape h
        · exact mem_castleQueenside_shape h
      · exact absurd h (by simp)

theorem mem_genF_succ {fuel : Nat} {bd : Board} {who : Color} {attacking : Option Spot} {m : Move} :
    m ∈ genF (fuel + 1) bd who attacking ↔
      ∃ sp, sp ∈ bd.positions who ∧
        m ∈ movesOfPiece bd who who.other attacking
          (fun s c => (genF fuel bd c (some s)).any fun m' => m'.to_ == s) sp.1 sp.2 := by
  simp [genF, positionalMovesCore, List.mem_flatMap]

theorem mem_positional_moves {bd : Board} {who : Color} {attacking : Option Spot} {m : Move} :
    m ∈ bd.positional_moves who attacking ↔
      ∃ sp, sp ∈ bd.positions who ∧
        m ∈ movesOfPiece bd who who.other attacking
          (fun s c => (genF 1 bd c (some s)).any fun m' => m'.to_ == s) sp.1 sp.2 :=
  mem_genF_succ

theorem mem_positional_moves_shape {bd : Board} {who : Color} {attacking : Option Spot} {m : Move}
    (h : m ∈ bd.positional_moves who attacking) :
    ∃ pc : Piece, bd.piecemap m.from_ = some pc ∧ pc.color = who ∧ m.promote = none := by
  rcases mem_positional_moves.mp h with ⟨sp, hsp, hm⟩
  rcases mem_movesOfPiece_shape hm with ⟨hfrom, hpr⟩
  rcases sp with ⟨s, pc⟩
  rcases mem_positions.mp hsp with ⟨_, _, hpm, hc⟩
  exact ⟨pc, by rw [hfrom]; exact hpm, hc, hpr⟩

/-! ## Stabilisation of the `is_attacked` / castling mutual recursion -/

theorem castleKingside_e1 (bd : Board) (plyother : Color) (isAtt : Spot → Color → Bool) :
    castleKingside bd plyother isAtt ⟨4, 0⟩ =
      (if (bd.piecemap ⟨7, 0⟩).any (fun pc => pc.kind == Kind.r) &&
          !(bd.castle_x.contains ⟨7, 0⟩) &&
          (bd.piecemap ⟨5, 0⟩).isNone && (bd.piecemap ⟨6, 0⟩).isNone then
        if !(isAtt ⟨4, 0⟩ plyother || isAtt ⟨5, 0⟩ plyother || isAtt ⟨6, 0⟩ plyother) then
          [Move.mk ⟨4, 0⟩ ⟨6, 0⟩ none]
        else []
      else []) := rfl

theorem castleKingside_e8 (bd : Board) (plyother : Color) (isAtt : Spot → Color → Bool) :
    castleKingside bd plyother isAtt ⟨4, 7⟩ =
      (if (bd.piecemap ⟨7, 7⟩).any (fun pc => pc.kind == Kind.r) &&
          !(bd.castle_x.contains ⟨7, 7⟩) &&
          (bd.piecemap ⟨5, 7⟩).isNone && (bd.piecemap ⟨6, 7⟩).isNone then
        if !(isAtt ⟨4, 7⟩ plyother || isAtt ⟨5, 7⟩ plyother || isAtt ⟨6, 7⟩ plyother) then
          [Move.mk ⟨4, 7⟩ ⟨6, 7⟩ none]
        else []
      else []) := rfl

theorem castleQueenside_e1 (bd : Board) (plyother : Color) (isAtt : Spot → Color → Bool) :
    castleQueenside bd plyother isAtt ⟨4, 0⟩ =
      (if (bd.piecemap ⟨0, 0⟩).any (fun pc => pc.kind == Kind.r) &&
          !(bd.castle_x.contains ⟨0, 0⟩) &&
          (bd.piecemap ⟨3, 0⟩).isNone && (bd.piecemap ⟨2, 0⟩).isNone &&
          (bd.piecemap ⟨1, 0⟩).isNone then
        if !(isAtt ⟨4, 0⟩ plyother || isAtt ⟨3, 0⟩ plyother || isAtt ⟨2, 0⟩ plyother) then
          [Move.mk ⟨4, 0⟩ ⟨2, 0⟩ none]
        else []
      else []) := rfl

theorem castleQueenside_e8 (bd : Board) (plyother : Color) (isAtt : Spot → Color → Bool) :
    castleQueenside bd plyother isAtt ⟨4, 7⟩ =
      (if (bd.piecemap ⟨0, 7⟩).any (fun pc => pc.kind == Kind.r) &&
          !(bd.castle_x.contains ⟨0, 7⟩) &&
          (bd.piecemap ⟨3, 7⟩).isNone && (bd.piecemap ⟨2, 7⟩).isNone &&
          (bd.piecemap ⟨1, 7⟩).isNone then
        if !(isAtt ⟨4, 7⟩ plyother || isAtt ⟨3, 7⟩ plyother || isAtt ⟨2, 7⟩ plyother) then
          [Move.mk ⟨4, 7⟩ ⟨2, 7⟩ none]
        else []
      else []) := rfl

theorem positionalMovesCore_congr {bd : Board} {plynow plyother : Color}
    {attacking : Option Spot} {f g : Spot → Color → Bool}
    (hfg : ∀ s', s'.r = (kSpot plynow).r → f s' plyother = g s' plyother) :
    positionalMovesCore bd plynow plyother attacking f =
      positionalMovesCore bd plynow plyother attacking g := by
  unfold positionalMovesCore
  apply List.flatMap_congr
  intro sp _
  unfold movesOfPiece
  split
  · rfl
  · congr 1
    by_cases hcond : sp.2.kind = Kind.k ∧ sp.1 = kSpot plynow ∧ sp.1 ∉ bd.castle_x ∧
        attackingOK attacking (kSpot plynow) = true
    · rw [if_pos hcond, if_pos hcond]
      obtain ⟨-, hsp, -, -⟩ := hcond
      rw [hsp]
      cases plynow with
      | w =>
        simp only [kSpot]
        rw [castleKingside_e1, castleKingside_e1, castleQueenside_e1, castleQueenside_e1,
          hfg ⟨4, 0⟩ rfl, hfg ⟨5, 0⟩ rfl, hfg ⟨6, 0⟩ rfl, hfg ⟨3, 0⟩ rfl, hfg ⟨2, 0⟩ rfl]
      | b =>
        simp only [kSpot]
        rw [castleKingside_e8, castleKingside_e8, castleQueenside_e8, castleQueenside_e8,
          hfg ⟨4, 7⟩ rfl, hfg ⟨5, 7⟩ rfl, hfg ⟨6, 7⟩ rfl, hfg ⟨3, 7⟩ rfl, hfg ⟨2, 7⟩ rfl]
    · rw [if_neg hcond, if_neg hcond]

theorem attackingOK_false_of_rank_ne {a k : Spot} (h : ¬a.r = k.r) :
    attackingOK (some a) k = false := by
  simp [attackingOK, h]

theorem positionalMovesCore_attacking_congr {bd : Board} {plynow plyother : Color}
    {attacking : Option Spot} {f g : Spot → Color → Bool}
    (hatt : attackingOK attacking (kSpot plynow) = false) :
    positionalMovesCore bd plynow plyother attacking f =
      positionalMovesCore bd plynow plyother attacking g := by
  unfold positionalMovesCore
  apply List.flatMap_congr
  intro sp _
  unfold movesOfPiece
  split
  · rfl
  · congr 1
    have hne : ¬(sp.2.kind = Kind.k ∧ sp.1 = kSpot plynow ∧ sp.1 ∉ bd.castle_x ∧
        attackingOK attacking (kSpot plynow) = true) := by
      rintro ⟨-, -, -, h4⟩
      rw [hatt] at h4
      exact Bool.false_ne_true h4
    rw [if_neg hne, if_neg hne]

theorem genF_attacking_rank_ne {n : Nat} {bd : Board} {who : Color} {a : Spot}
    (ha : ¬a.r = (kSpot who).r) :
    genF n bd who (some a) = genF 0 bd who (some a) := by
  cases n with
  | zero => rfl
  | succ m =>
    show positionalMovesCore bd who who.other (some a) _ =
      positionalMovesCore bd who who.other (some a) _
    exact positionalMovesCore_attacking_congr (attackingOK_false_of_rank_ne ha)

theorem kSpot_other_rank_ne (who : Color) : ¬(kSpot who.other).r = (kSpot who).r := by
  cases who <;> decide

theorem genF_stab {n : Nat} {bd : Board} {who : Color} {attacking : Option Spot} :
    genF (n + 1) bd who attacking = genF 1 bd who attacking := by
  show positionalMovesCore bd who who.other attacking _ =
    positionalMovesCore bd who who.other attacking _
  apply positionalMovesCore_congr
  intro s' hs'
  have hne : ¬s'.r = (kSpot who.other).r := by
    rw [hs']
    exact fun h => kSpot_other_rank_ne who h.symm
  show (genF n bd who.other (some s')).any (fun m => m.to_ == s') =
    (genF 0 bd who.other (some s')).any fun m => m.to_ == s'
  rw [genF_attacking_rank_ne hne]

theorem genF_ge_one {n : Nat} (hn : 1 ≤ n) {bd : Board} {who : Color}
    {attacking : Option Spot} : genF n bd who attacking = genF 1 bd who attacking := by
  cases n with
  | zero => exact absurd hn (by simp)
  | succ m => exact genF_stab

theorem positional_moves_eq_genF_one {bd : Board} {who : Color} {attacking : Option Spot} :
    bd.positional_moves who attacking = genF 1 bd who attacking :=
  genF_stab

theorem is_attackedF_eq {n : Nat} (hn : 1 ≤ n) {bd : Board} {s : Spot} {who : Color} :
    is_attackedF n bd s who = bd.is_attacked s who := by
  unfold is_attackedF Board.is_attacked
  rw [genF_ge_one hn, positional_moves_eq_genF_one]

/-! ## Characterisation of `legal_moves` -/

theorem checkSafe_eq_true_iff {bd : Board} {c : Move} :
    bd.checkSafe c = true ↔
      ∃ ch, bd.make_move c true = some ch ∧ ch.is_positional_check bd.who = false := by
  unfold Board.checkSafe
  cases h : bd.make_move c true with
  | none => simp
  | some ch => simp [Bool.not_eq_true']

theorem mem_legal_moves {bd : Board} {m : Move} :
    m ∈ bd.legal_moves ↔
      ∃ c, c ∈ bd.positional_moves bd.who none ∧ bd.checkSafe c = true ∧
        m ∈ promoteExpand bd c := by
  unfold Board.legal_moves
  simp only [List.mem_flatMap]
  constructor
  · rintro ⟨c, hc, hm⟩
    by_cases hcs : bd.checkSafe c = true
    · rw [if_pos hcs] at hm
      exact ⟨c, hc, hcs, hm⟩
    · rw [if_neg hcs] at hm
      exact absurd hm (by simp)
  · rintro ⟨c, hc, hcs, hm⟩
    refine ⟨c, hc, ?_⟩
    rw [if_pos hcs]
    exact hm

theorem mem_promoteExpand_shape {bd : Board} {c m : Move} (h : m ∈ promoteExpand bd c) :
    m.from_ = c.from_ ∧ m.to_ = c.to_ := by
  unfold promoteExpand at h
  split at h
  · simp only [List.mem_cons, List.mem_singleton, List.not_mem_nil, or_false] at h
    rcases h with rfl | rfl | rfl | rfl <;> exact ⟨rfl, rfl⟩
  · rcases List.mem_singleton.mp h with rfl
    exact ⟨rfl, rfl⟩

theorem move_eq_of_fields {c c' : Move} (h1 : c'.from_ = c.from_) (h2 : c'.to_ = c.to_)
    (h3 : c'.promote = c.promote) : c' = c := by
  cases c
  cases c'
  simp only at h1 h2 h3
  simp [h1, h2, h3]

/-- C1: every move in the legal set is check-safe (applying it with the
promotion placeholder leaves the mover's king unattacked), and every
pseudo-legal candidate whose application leaves the mover's king attacked
contributes no move (with any promotion field) to the legal set. -/
theorem claim_C1 (bd : Board) :
    (∀ m ∈ bd.legal_moves,
      ∃ chboard, bd.make_move (Move.mk m.from_ m.to_ none) true = some chboard ∧
        chboard.is_positional_check bd.who = false) ∧
    (∀ c ∈ bd.positional_moves bd.who none, ∀ chboard,
      bd.make_move c true = some chboard → chboard.is_positional_check bd.who = true →
      ∀ pr, Move.mk c.from_ c.to_ pr ∉ bd.legal_moves) := by
  constructor
  · intro m hm
    rcases mem_legal_moves.mp hm with ⟨c, hc, hcs, hex⟩
    rcases mem_promoteExpand_shape hex with ⟨hf, ht⟩
    rcases mem_positional_moves_shape hc with ⟨pc, -, -, hpr⟩
    have hceq : Move.mk m.from_ m.to_ none = c := by
      rcases c with ⟨cf, ct, cp⟩
      simp only [Move.mk.injEq]
      exact ⟨hf, ht, hpr.symm⟩
    rw [hceq]
    exact checkSafe_eq_true_iff.mp hcs
  · intro c hc chboard hmk hchk pr hmem
    rcases mem_legal_moves.mp hmem with ⟨c', hc', hcs', hex'⟩
    rcases mem_promoteExpand_shape hex' with ⟨hf, ht⟩
    rcases mem_positional_moves_shape hc with ⟨pc, -, -, hprc⟩
    rcases mem_positional_moves_shape hc' with ⟨pc', -, -, hprc'⟩
    have hceq : c' = c := by
      rcases c with ⟨cf, ct, cp⟩
      rcases c' with ⟨cf', ct', cp'⟩
      simp only [Move.mk.injEq]
      exact ⟨hf.symm, ht.symm, hprc'.trans hprc.symm⟩
    rw [hceq] at hcs'
    rcases checkSafe_eq_true_iff.mp hcs' with ⟨ch2, hmk2, hchk2⟩
    rw [hmk] at hmk2
    cases hmk2
    rw [hchk] at hchk2
    exact Bool.noConfusion hchk2

/-- A small position for the C1 witness: white king e1, white knight e2
(pinned), black rook e8, black king g8, white to move. -/
def C1board : Board :=
  { piecemap := fun s =>
      if s = ⟨4, 0⟩ then some ⟨.w, .k⟩
      else if s = ⟨4, 1⟩ then some ⟨.w, .n⟩
      else if s = ⟨4, 7⟩ then some ⟨.b, .r⟩
      else if s = ⟨6, 7⟩ then some ⟨.b, .k⟩
      else none
    enpassant := none
    castle_x := []
    history := [] }

theorem claim_C1_witness :
    (∃ chboard, C1board.make_move (Move.mk ⟨4, 0⟩ ⟨3, 0⟩ none) true = some chboard ∧
      chboard.is_positional_check C1board.who = false) ∧
    Move.mk ⟨4, 1⟩ ⟨3, 3⟩ none ∉ C1board.legal_moves := by
  constructor
  · exact (claim_C1 C1board).1 (Move.mk ⟨4, 0⟩ ⟨3, 0⟩ none) (by decide)
  · match hmk : C1board.make_move (Move.mk ⟨4, 1⟩ ⟨3, 3⟩ none) true with
    | some chboard =>
      have hval : (C1board.make_move (Move.mk ⟨4, 1⟩ ⟨3, 3⟩ none) true).map
          (fun b2 => b2.is_positional_check C1board.who) = some true := by decide
      rw [hmk] at hval
      have hchk : chboard.is_positional_check C1board.who = true := by
        simpa using hval
      exact (claim_C1 C1board).2 (Move.mk ⟨4, 1⟩ ⟨3, 3⟩ none) (by decide) chboard hmk hchk none
    | none =>
      have : (C1board.make_move (Move.mk ⟨4, 1⟩ ⟨3, 3⟩ none) true).isSome = true := by decide
      rw [hmk] at this
      exact absurd this (by simp)

/-- C10: `is_attacked` terminates — the castling/attack mutual recursion
stabilises at depth two: computing with any recursion budget of at least 2
gives the value of the depth-2 computation, because the nested attack
queries made by a castling block land on the opposite side's foreign back
rank and re-enter no castling block. -/
theorem claim_C10 (fuel : Nat) (hfuel : 2 ≤ fuel) (bd : Board) (s : Spot) (who : Color) :
    is_attackedF fuel bd s who = bd.is_attacked s who :=
  is_attackedF_eq (le_trans (by norm_num) hfuel)

theorem claim_C10_witness :
    is_attackedF 5 C1board ⟨4, 0⟩ Color.b = C1board.is_attacked ⟨4, 0⟩ Color.b :=
  claim_C10 5 (by norm_num) C1board ⟨4, 0⟩ Color.b

/-! ## Structure of `make_move` results -/

theorem make_move_history {bd : Board} {m : Move} {ig : Bool} {bd' : Board}
    (h : bd.make_move m ig = some bd') : bd'.history = bd.history ++ [m] := by
  simp only [Board.make_move] at h
  split at h
  · exact absurd h (by simp)
  · split at h
    · exact absurd h (by simp)
    · split at h
      · exact absurd h (by simp)
      · split at h
        · exact absurd h (by simp)
        · split at h
          · exact absurd h (by simp)
          · cases h
            rfl

/-- C9: `make_move` mutates nothing (the embedding's application is a pure
function of the input Position); the returned Position records the move at
the end of the history and is therefore a distinct value from the input. -/
theorem claim_C9 (bd : Board) (m : Move) (ig : Bool) (bd' : Board)
    (h : bd.make_move m ig = some bd') :
    bd'.history = bd.history ++ [m] ∧ bd' ≠ bd := by
  have hh := make_move_history h
  refine ⟨hh, ?_⟩
  intro heq
  rw [heq] at hh
  have hlen := congrArg List.length hh
  simp at hlen

theorem claim_C9_witness :
    ∃ bd', Board.default_board.make_move (Move.mk ⟨4, 1⟩ ⟨4, 3⟩ none) false = some bd' ∧
      bd'.history = Board.default_board.history ++ [Move.mk ⟨4, 1⟩ ⟨4, 3⟩ none] ∧
      bd' ≠ Board.default_board := by
  match hmk : Board.default_board.make_move (Move.mk ⟨4, 1⟩ ⟨4, 3⟩ none) false with
  | some bd' =>
    rcases claim_C9 _ _ _ _ hmk with ⟨h1, h2⟩
    exact ⟨bd', rfl, h1, h2⟩
  | none =>
    have hs : (Board.default_board.make_move (Move.mk ⟨4, 1⟩ ⟨4, 3⟩ none) false).isSome
        = true := by decide
    rw [hmk] at hs
    exact absurd hs (by simp)

/-! ## Arithmetic facts about `Delta.from_` -/

theorem from__spec {d : Delta} {sp sp' : Spot} (h : d.from_ sp = some sp') :
    (sp'.f : Int) = (sp.f : Int) + d.df ∧ (sp'.r : Int) = (sp.r : Int) + d.dr := by
  unfold Delta.from_ at h
  split at h
  · rename_i hc
    obtain ⟨h1, h2, h3, h4⟩ := hc
    injection h with h
    subst h
    exact ⟨Int.toNat_of_nonneg h1, Int.toNat_of_nonneg h3⟩
  · exact absurd h (by simp)

theorem from__bounds {d : Delta} {sp sp' : Spot} (h : d.from_ sp = some sp') :
    0 ≤ (sp.f : Int) + d.df ∧ (sp.f : Int) + d.df < 8 ∧
      0 ≤ (sp.r : Int) + d.dr ∧ (sp.r : Int) + d.dr < 8 := by
  unfold Delta.from_ at h
  split at h
  · rename_i hc
    exact hc
  · exact absurd h (by simp)

theorem from__isSome_of {d : Delta} {sp : Spot}
    (h1 : 0 ≤ (sp.f : Int) + d.df) (h2 : (sp.f : Int) + d.df < 8)
    (h3 : 0 ≤ (sp.r : Int) + d.dr) (h4 : (sp.r : Int) + d.dr < 8) :
    ∃ sq, d.from_ sp = some sq := by
  unfold Delta.from_
  rw [if_pos ⟨h1, h2, h3, h4⟩]
  exact ⟨_, rfl⟩

theorem ep_half_step {who : Color} {fr t : Spot} (hr : fr.r = homeRank who)
    (h2 : (Delta.mk 0 (pawnDr who * 2)).from_ fr = some t) :
    ∃ sq, (Delta.mk 0 (pawnDr who)).from_ fr = some sq := by
  have hb := from__bounds h2
  apply from__isSome_of
  · exact hb.1
  · exact hb.2.1
  · cases who <;> (simp [homeRank] at hr; simp [pawnDr]; omega)
  · cases who <;> (simp [homeRank] at hr; simp [pawnDr]; omega)

theorem ep_cond_promo_false {who : Color} {fr t : Spot} (hto : t.r = 0 ∨ t.r = 7)
    (hr : fr.r = homeRank who)
    (htr : (Delta.mk 0 (pawnDr who * 2)).from_ fr = some t) : False := by
  have hspec := (from__spec htr).2
  rcases hto with hto | hto <;>
    (cases who <;> (simp [homeRank] at hr; simp [pawnDr] at hspec; omega))

/-! ## The en-passant field after `make_move` -/

theorem make_move_enpassant {bd : Board} {m : Move} {ig : Bool} {bd' : Board} {pc0 : Piece}
    (h : bd.make_move m ig = some bd') (hpc0 : bd.piecemap m.from_ = some pc0) :
    (bd'.enpassant ≠ none ↔
      pc0.kind = Kind.p ∧ m.from_.r = homeRank bd.who ∧
        (Delta.mk 0 (pawnDr bd.who * 2)).from_ m.from_ = some m.to_) ∧
    (∀ lp, bd'.enpassant = some lp →
      (Delta.mk 0 (pawnDr bd.who)).from_ m.from_ = some lp.1 ∧ lp.2 = m.to_) := by
  simp only [Board.make_move, hpc0] at h
  split at h
  · exact absurd h (by simp)
  · split at h
    · exact absurd h (by simp)
    · split at h
      · exact absurd h (by simp)
      · rename_i piece heqp
        split at h
        · exact absurd h (by simp)
        · injection h with h
          have hep : bd'.enpassant = if piece.kind = Kind.p ∧ m.from_.r = homeRank bd.who ∧
              (Delta.mk 0 (pawnDr bd.who * 2)).from_ m.from_ = some m.to_ then
              ((Delta.mk 0 (pawnDr bd.who)).from_ m.from_).map fun sq => (sq, m.to_)
            else none := by rw [← h]
          rw [hep]
          by_cases hpr : ¬ig = true ∧ pc0.kind = Kind.p ∧ (m.to_.r = 0 ∨ m.to_.r = 7)
          · rw [if_pos hpr] at heqp
            constructor
            · constructor
              · intro hne
                by_cases hcond : piece.kind = Kind.p ∧ m.from_.r = homeRank bd.who ∧
                    (Delta.mk 0 (pawnDr bd.who * 2)).from_ m.from_ = some m.to_
                · exact (ep_cond_promo_false hpr.2.2 hcond.2.1 hcond.2.2).elim
                · rw [if_neg hcond] at hne
                  exact absurd rfl hne
              · rintro ⟨-, hr0, ht0⟩
                exact (ep_cond_promo_false hpr.2.2 hr0 ht0).elim
            · intro lp hlp
              by_cases hcond : piece.kind = Kind.p ∧ m.from_.r = homeRank bd.who ∧
                  (Delta.mk 0 (pawnDr bd.who * 2)).from_ m.from_ = some m.to_
              · exact (ep_cond_promo_false hpr.2.2 hcond.2.1 hcond.2.2).elim
              · rw [if_neg hcond] at hlp
                exact absurd hlp (by simp)
          · rw [if_neg hpr] at heqp
            injection heqp with heqp
            subst heqp
            constructor
            · by_cases hcond : pc0.kind = Kind.p ∧ m.from_.r = homeRank bd.who ∧
                  (Delta.mk 0 (pawnDr bd.who * 2)).from_ m.from_ = some m.to_
              · rw [if_pos hcond]
                constructor
                · intro _
                  exact hcond
                · intro _
                  rcases ep_half_step hcond.2.1 hcond.2.2 with ⟨sq, hsq⟩
                  rw [hsq]
                  simp
              · rw [if_neg hcond]
                simp [hcond]
            · intro lp hlp
              by_cases hcond : pc0.kind = Kind.p ∧ m.from_.r = homeRank bd.who ∧
                  (Delta.mk 0 (pawnDr bd.who * 2)).from_ m.from_ = some m.to_
              · rw [if_pos hcond] at hlp
                rcases Option.map_eq_some'.mp hlp with ⟨sq, hsq, hval⟩
                constructor
                · rw [hsq, ← hval]
                · rw [← hval]
              · rw [if_neg hcond] at hlp
                exact absurd hlp (by simp)

theorem pawn_diag_capture {bd : Board} {piece : Piece} {spot : Spot} {df : Int} {m : Move}
    (h : m ∈ pawnDfMoves bd piece spot df) (hf : ¬m.to_.f = m.from_.f) :
    ((bd.piecemap m.to_).any (fun pc2 => pc2.color == piece.color.other) ||
      some m.to_ == (bd.enpassant.map fun eppair => eppair.1)) = true := by
  simp only [pawnDfMoves] at h
  rcases hft : (Delta.mk df (pawnDr piece.color)).from_ spot with _ | spot2
  · simp only [hft] at h
    exact absurd h (by simp)
  · simp only [hft] at h
    by_cases hdf : df = 0
    · rw [if_pos hdf] at h
      exfalso
      apply hf
      split at h
      · rcases List.mem_cons.mp h with rfl | h
        · have hsp := (from__spec hft).1
          subst hdf
          simp only [add_zero] at hsp
          exact_mod_cast hsp
        · split at h
          · rcases hft2 : (Delta.mk df (pawnDr piece.color * 2)).from_ spot with _ | spot3
            · simp only [hft2] at h
              exact absurd h (by simp)
            · simp only [hft2] at h
              split at h
              · rcases List.mem_singleton.mp h with rfl
                have hsp := (from__spec hft2).1
                subst hdf
                simp only [add_zero] at hsp
                exact_mod_cast hsp
              · exact absurd h (by simp)
          · exact absurd h (by simp)
      · exact absurd h (by simp)
    · rw [if_neg hdf] at h
      split at h
      · rename_i hcondx
        rcases List.mem_singleton.mp h with rfl
        exact hcondx
      · exact absurd h (by simp)

theorem gen_pawn_diag {bd : Board} {m : Move} {pc : Piece}
    (hm : m ∈ bd.positional_moves bd.who none) (hpc : bd.piecemap m.from_ = some pc)
    (hk : pc.kind = Kind.p) (hf : ¬m.to_.f = m.from_.f) :
    (bd.piecemap m.to_).any (fun pc2 => pc2.color == bd.who.other) = true ∨
      ∃ cap, bd.enpassant = some (m.to_, cap) := by
  rcases mem_positional_moves.mp hm with ⟨sp, hsp, hmop⟩
  have hfr := (mem_movesOfPiece_shape hmop).1
  rcases sp with ⟨s, pc'⟩
  rcases mem_positions.mp hsp with ⟨-, -, hpm, hcol⟩
  simp only at hfr hpm hcol hmop
  subst hfr
  rw [hpm] at hpc
  injection hpc with hpc
  rw [hpc] at hmop hcol
  unfold movesOfPiece at hmop
  rw [if_pos hk] at hmop
  have hcap : ((bd.piecemap m.to_).any (fun pc2 => pc2.color == pc.color.other) ||
      some m.to_ == (bd.enpassant.map fun eppair => eppair.1)) = true := by
    rcases List.mem_append.mp hmop with h | h
    · rcases List.mem_append.mp h with h | h
      · exact pawn_diag_capture h hf
      · exact pawn_diag_capture h hf
    · exact pawn_diag_capture h hf
  simp only [Bool.or_eq_true] at hcap
  rcases hcap with h | h
  · left
    rw [← hcol]
    exact h
  · right
    have heq : some m.to_ = bd.enpassant.map fun eppair => eppair.1 := eq_of_beq h
    rcases hep : bd.enpassant with _ | pair
    · rw [hep] at heq
      exact absurd heq (by simp)
    · rw [hep] at heq
      simp only [Option.map_some'] at heq
      injection heq with heq
      exact ⟨pair.2, by rw [heq]⟩

/-- C7: after any application of `make_move`, the result's en-passant field
is Some (square one step behind the destination, destination) exactly when
the moved piece is a pawn advancing two squares from its home rank, and
None after every other move; and the pseudo-legal generator yields a
file-changing pawn move only onto an enemy-occupied square or onto the
current en-passant landing square, so an en-passant capture exists only in
the single ply for which the field is Some. -/
theorem claim_C7 :
    (∀ (bd : Board) (m : Move) (ig : Bool) (bd' : Board) (pc0 : Piece),
      bd.make_move m ig = some bd' → bd.piecemap m.from_ = some pc0 →
      ((bd'.enpassant ≠ none ↔
          pc0.kind = Kind.p ∧ m.from_.r = homeRank bd.who ∧
            (Delta.mk 0 (pawnDr bd.who * 2)).from_ m.from_ = some m.to_) ∧
        ∀ lp, bd'.enpassant = some lp →
          (Delta.mk 0 (pawnDr bd.who)).from_ m.from_ = some lp.1 ∧ lp.2 = m.to_)) ∧
    (∀ (bd : Board) (m : Move) (pc : Piece),
      m ∈ bd.positional_moves bd.who none → bd.piecemap m.from_ = some pc →
      pc.kind = Kind.p → ¬m.to_.f = m.from_.f →
      (bd.piecemap m.to_).any (fun pc2 => pc2.color == bd.who.other) = true ∨
        ∃ cap, bd.enpassant = some (m.to_, cap)) := by
  constructor
  · intro bd m ig bd' pc0 h hpc0
    exact make_move_enpassant h hpc0
  · intro bd m pc hm hpc hk hf
    exact gen_pawn_diag hm hpc hk hf

/-- A position with an open en-passant window: white pawn e5, black pawn
d5 just double-pushed (en-passant pair (d6, d5)), kings e1/e8. -/
def EPboard : Board :=
  { piecemap := fun s =>
      if s = ⟨4, 4⟩ then some ⟨.w, .p⟩
      else if s = ⟨3, 4⟩ then some ⟨.b, .p⟩
      else if s = ⟨4, 0⟩ then some ⟨.w, .k⟩
      else if s = ⟨4, 7⟩ then some ⟨.b, .k⟩
      else none
    enpassant := some (⟨3, 5⟩, ⟨3, 4⟩)
    castle_x := []
    history := [] }

theorem claim_C7_witness :
    (∃ bd', Board.default_board.make_move (Move.mk ⟨4, 1⟩ ⟨4, 3⟩ none) false = some bd' ∧
      bd'.enpassant ≠ none) ∧
    ((EPboard.piecemap ⟨3, 5⟩).any (fun pc2 => pc2.color == EPboard.who.other) = true ∨
      ∃ cap, EPboard.enpassant = some (⟨3, 5⟩, cap)) := by
  constructor
  · match hmk : Board.default_board.make_move (Move.mk ⟨4, 1⟩ ⟨4, 3⟩ none) false with
    | some bd' =>
      have h := (claim_C7.1 Board.default_board (Move.mk ⟨4, 1⟩ ⟨4, 3⟩ none) false bd'
        ⟨Color.w, Kind.p⟩ hmk (by decide)).1.mpr (by decide)
      exact ⟨bd', rfl, h⟩
    | none =>
      have hs : (Board.default_board.make_move (Move.mk ⟨4, 1⟩ ⟨4, 3⟩ none) false).isSome
          = true := by decide
      rw [hmk] at hs
      exact absurd hs (by simp)
  · exact claim_C7.2 EPboard (Move.mk ⟨4, 4⟩ ⟨3, 5⟩ none) ⟨Color.w, Kind.p⟩
      (by decide) (by decide) (by decide) (by decide)

/-- C3 counterexample: on the initial board `is_attacked e4 w` is true —
the pawn double push e2-e4 is among the generated moves — although no
white piece reaches e4 by capture: e4 is not in the "attacks"
(`_attacked_positions`) set the spec describes, refuting the claimed
equivalence. -/
theorem claim_C3_counterexample :
    Board.default_board.is_attacked ⟨4, 3⟩ Color.w = true ∧
      (⟨4, 3⟩ : Spot) ∉ Board.default_board.attacked_positions Color.w := by
  refine ⟨by decide, by decide⟩

/-- C3 amended: `is_attacked(s, b)` is true iff `s` is the destination of
some move of `_positional_moves(b, attacking=s)` — so pawns contribute
their forward pushes onto empty squares and contribute diagonal squares
only when enemy-occupied or equal to the en-passant landing square; and
for a square off `b`'s own back rank the castling block contributes
nothing (the generator run is castling-free). -/
theorem claim_C3 (bd : Board) (s : Spot) (who : Color) :
    (bd.is_attacked s who = true ↔
      ∃ m ∈ bd.positional_moves who (some s), m.to_ = s) ∧
    (¬s.r = (kSpot who).r →
      bd.is_attacked s who = ((genF 0 bd who (some s)).any fun m => m.to_ == s)) := by
  constructor
  · unfold Board.is_attacked
    rw [List.any_eq_true]
    constructor
    · rintro ⟨m, hm, he⟩
      exact ⟨m, hm, by simpa using he⟩
    · rintro ⟨m, hm, he⟩
      exact ⟨m, hm, by simpa using he⟩
  · intro hr
    unfold Board.is_attacked Board.positional_moves
    rw [genF_attacking_rank_ne hr]

theorem claim_C3_witness :
    Board.default_board.is_attacked ⟨4, 3⟩ Color.w = true ∧
      Board.default_board.is_attacked ⟨3, 2⟩ Color.w =
        ((genF 0 Board.default_board Color.w (some ⟨3, 2⟩)).any fun m => m.to_ == (⟨3, 2⟩ : Spot)) := by
  constructor
  · exact (claim_C3 Board.default_board ⟨4, 3⟩ Color.w).1.mpr
      ⟨Move.mk ⟨4, 1⟩ ⟨4, 3⟩ none, by decide, rfl⟩
  · exact (claim_C3 Board.default_board ⟨3, 2⟩ Color.w).2 (by decide)

/-! ## The notation resolver -/

theorem except_ok_of_toOption {e : Except InterpretationError Move} {a : Move}
    (h : e.toOption = some a) : e = .ok a := by
  cases e with
  | ok b =>
    simp only [Except.toOption] at h
    injection h with h
    rw [h]
  | error err => simp [Except.toOption] at h

/-- C8: the notation resolver returns only members of the legal-move set
(every successful result passes the final membership re-validation), and
on the parse path it fails with the candidate count whenever the number of
matching candidates differs from one. -/
theorem claim_C8 (bd : Board) (who : Color) (pgn : String) :
    (∀ m, bd.interpret who pgn = .ok m → m ∈ bd.legal_moves) ∧
    (∀ pp, ¬pgn = "O-O" → ¬pgn = "O-O-O" → parsePgn pgn = some pp →
      ¬(bd.pgn_matches who pp).length = 1 →
      bd.interpret who pgn =
        .error (.wrong_count (bd.pgn_matches who pp).length (bd.pgn_matches who pp))) := by
  constructor
  · intro m h
    unfold Board.interpret at h
    split at h
    · exact absurd h (by simp)
    · split at h
      · rename_i hmem
        injection h with h
        subst h
        exact List.mem_of_elem_eq_true hmem
      · exact absurd h (by simp)
  · intro pp h1 h2 hparse hne
    have hres : interpretResultE bd who pgn =
        .error (.wrong_count (bd.pgn_matches who pp).length (bd.pgn_matches who pp)) := by
      unfold interpretResultE
      rw [if_neg h1, if_neg h2]
      simp only [hparse]
      rcases hml : bd.pgn_matches who pp with _ | ⟨m1, _ | ⟨m2, ml⟩⟩
      · rfl
      · rw [hml] at hne
        exact absurd rfl hne
      · rfl
    unfold Board.interpret
    rw [hres]

theorem claim_C8_witness :
    Move.mk ⟨4, 0⟩ ⟨3, 0⟩ none ∈ C1board.legal_moves ∧
      C1board.interpret Color.w "e4" = .error (.wrong_count 0 []) := by
  constructor
  · exact (claim_C8 C1board Color.w "Kd1").1 (Move.mk ⟨4, 0⟩ ⟨3, 0⟩ none)
      (except_ok_of_toOption (by decide))
  · have hml : C1board.pgn_matches Color.w ⟨Kind.p, none, none, ⟨4, 3⟩, none⟩ = [] := by
      decide
    have h := (claim_C8 C1board Color.w "e4").2 ⟨Kind.p, none, none, ⟨4, 3⟩, none⟩
      (by decide) (by decide) (by decide) (by rw [hml]; decide)
    rw [hml] at h
    exact h

/-! ## Castling: characterisation of the generated castle moves -/

theorem mem_rayDests_one {bd : Board} {who : Color} {spot : Spot} {dd : Delta} {s2 : Spot}
    (h : s2 ∈ rayDests bd who spot dd 1 1) : (dd.mul 1).from_ spot = some s2 := by
  unfold rayDests at h
  rcases hft : (dd.mul ((1 : Nat) : Int)).from_ spot with _ | spot2
  · simp only [hft] at h
    exact absurd h (by simp)
  · simp only [hft] at h
    rcases hpm : bd.piecemap spot2 with _ | pc
    · simp only [hpm] at h
      rcases List.mem_cons.mp h with rfl | h
      · rfl
      · exact absurd h (by simp [rayDests])
    · simp only [hpm] at h
      split at h
      · rcases List.mem_singleton.mp h with rfl
        rfl
      · exact absurd h (by simp)

theorem kSpot_f (who : Color) : (kSpot who).f = 4 := by
  cases who <;> rfl

theorem kSpot_valid (who : Color) : (kSpot who).f < 8 ∧ (kSpot who).r < 8 := by
  cases who <;> exact ⟨by decide, by decide⟩

theorem king_ray_file_bound {bd : Board} {pn : Color} {who : Color} {s2 : Spot} {dd : Delta}
    (hdd : dd ∈ pieceDirs Kind.k) (h : s2 ∈ rayDests bd pn (kSpot who) dd 1 1) :
    3 ≤ s2.f ∧ s2.f ≤ 5 := by
  have hft := mem_rayDests_one h
  have hspec := (from__spec hft).1
  rw [kSpot_f] at hspec
  simp only [pieceDirs, d_straight, d_diag, List.mem_append, List.mem_cons,
    List.not_mem_nil, or_false] at hdd
  rcases hdd with (rfl | rfl | rfl | rfl) | (rfl | rfl | rfl | rfl) <;>
    (simp [Delta.mul] at hspec; omega)

theorem castleKingside_kSpot (bd : Board) (plyother : Color)
    (isAtt : Spot → Color → Bool) (who : Color) :
    castleKingside bd plyother isAtt (kSpot who) =
      (if (bd.piecemap ⟨7, (kSpot who).r⟩).any (fun pc => pc.kind == Kind.r) &&
          !(bd.castle_x.contains ⟨7, (kSpot who).r⟩) &&
          (bd.piecemap ⟨5, (kSpot who).r⟩).isNone &&
          (bd.piecemap ⟨6, (kSpot who).r⟩).isNone then
        if !(isAtt (kSpot who) plyother || isAtt ⟨5, (kSpot who).r⟩ plyother ||
            isAtt ⟨6, (kSpot who).r⟩ plyother) then
          [Move.mk (kSpot who) ⟨6, (kSpot who).r⟩ none]
        else []
      else []) := by
  cases who
  · exact castleKingside_e1 bd plyother isAtt
  · exact castleKingside_e8 bd plyother isAtt

theorem castleQueenside_kSpot (bd : Board) (plyother : Color)
    (isAtt : Spot → Color → Bool) (who : Color) :
    castleQueenside bd plyother isAtt (kSpot who) =
      (if (bd.piecemap ⟨0, (kSpot who).r⟩).any (fun pc => pc.kind == Kind.r) &&
          !(bd.castle_x.contains ⟨0, (kSpot who).r⟩) &&
          (bd.piecemap ⟨3, (kSpot who).r⟩).isNone &&
          (bd.piecemap ⟨2, (kSpot who).r⟩).isNone &&
          (bd.piecemap ⟨1, (kSpot who).r⟩).isNone then
        if !(isAtt (kSpot who) plyother || isAtt ⟨3, (kSpot who).r⟩ plyother ||
            isAtt ⟨2, (kSpot who).r⟩ plyother) then
          [Move.mk (kSpot who) ⟨2, (kSpot who).r⟩ none]
        else []
      else []) := by
  cases who
  · exact castleQueenside_e1 bd plyother isAtt
  · exact castleQueenside_e8 bd plyother isAtt

/-- The attack oracle as the castling block of `positional_moves` sees it. -/
def isAtt1 (bd : Board) : Spot → Color → Bool :=
  fun s c => (genF 1 bd c (some s)).any fun m' => m'.to_ == s

theorem isAtt1_eq (bd : Board) (s : Spot) (c : Color) :
    isAtt1 bd s c = bd.is_attacked s c :=
  is_attackedF_eq (le_refl 1)

theorem not_mem_of_contains_eq_false {l : List Spot} {a : Spot}
    (h : l.contains a = false) : a ∉ l := by
  intro hmem
  rw [show l.contains a = l.elem a from rfl, List.elem_iff.mpr hmem] at h
  exact Bool.noConfusion h

theorem contains_eq_false_of_not_mem {l : List Spot} {a : Spot}
    (h : a ∉ l) : l.contains a = false := by
  by_cases hc : l.contains a = true
  · exact absurd (List.mem_of_elem_eq_true hc) h
  · simpa using hc

theorem mem_gen_king_decomp {bd : Board} {who : Color} {m : Move}
    (hk : bd.piecemap (kSpot who) = some ⟨who, Kind.k⟩)
    (hm : m ∈ bd.positional_moves who none) (hfr : m.from_ = kSpot who) :
    (∃ dd ∈ pieceDirs Kind.k, m.to_ ∈ rayDests bd who (kSpot who) dd 1 1) ∨
      (kSpot who ∉ bd.castle_x ∧
        (m ∈ castleKingside bd who.other (isAtt1 bd) (kSpot who) ∨
          m ∈ castleQueenside bd who.other (isAtt1 bd) (kSpot who))) := by
  rcases mem_positional_moves.mp hm with ⟨sp, hsp, hmop⟩
  have hfr' := (mem_movesOfPiece_shape hmop).1
  rcases sp with ⟨s, pc⟩
  rcases mem_positions.mp hsp with ⟨-, -, hpm, -⟩
  simp only at hfr' hpm hmop
  rw [hfr] at hfr'
  rw [← hfr'] at hpm
  rw [hk] at hpm
  injection hpm with hpm
  rw [← hfr'] at hmop
  rw [← hpm] at hmop
  unfold movesOfPiece at hmop
  rw [if_neg (by simp)] at hmop
  rcases List.mem_append.mp hmop with h | h
  · left
    rcases List.mem_map.mp h with ⟨s2, hs2, heq⟩
    rcases List.mem_flatMap.mp hs2 with ⟨dd, hdd, hray⟩
    refine ⟨dd, hdd, ?_⟩
    have hto : m.to_ = s2 := by rw [← heq]
    rw [hto]
    simpa using hray
  · right
    split at h
    · rename_i hguard
      exact ⟨hguard.2.2.1, List.mem_append.mp h⟩
    · exact absurd h (by simp)

theorem castle_kingside_iff (bd : Board) (who : Color)
    (hk : bd.piecemap (kSpot who) = some ⟨who, Kind.k⟩) :
    Move.mk (kSpot who) ⟨6, (kSpot who).r⟩ none ∈ bd.positional_moves who none ↔
      (kSpot who ∉ bd.castle_x ∧ ⟨7, (kSpot who).r⟩ ∉ bd.castle_x ∧
        (bd.piecemap ⟨7, (kSpot who).r⟩).any (fun pc => pc.kind == Kind.r) = true ∧
        bd.piecemap ⟨5, (kSpot who).r⟩ = none ∧ bd.piecemap ⟨6, (kSpot who).r⟩ = none ∧
        bd.is_attacked (kSpot who) who.other = false ∧
        bd.is_attacked ⟨5, (kSpot who).r⟩ who.other = false ∧
        bd.is_attacked ⟨6, (kSpot who).r⟩ who.other = false) := by
  constructor
  · intro hm
    rcases mem_gen_king_decomp hk hm rfl with ⟨dd, hdd, hray⟩ | ⟨hcx, h | h⟩
    · have hb := (king_ray_file_bound hdd hray).2
      simp at hb
    · rw [castleKingside_kSpot] at h
      split at h
      · rename_i hc1
        split at h
        · rename_i hc2
          simp only [Bool.and_eq_true] at hc1
          obtain ⟨⟨⟨hrook, hncx⟩, h5⟩, h6⟩ := hc1
          simp only [Bool.not_eq_true'] at hncx
          simp only [Bool.not_eq_true', Bool.or_eq_false_iff] at hc2
          obtain ⟨⟨ha0, ha5⟩, ha6⟩ := hc2
          refine ⟨hcx, not_mem_of_contains_eq_false hncx, hrook,
            Option.isNone_iff_eq_none.mp h5, Option.isNone_iff_eq_none.mp h6, ?_, ?_, ?_⟩
          · exact ((is_attackedF_eq (le_refl 1)).symm.trans ha0)
          · exact ((is_attackedF_eq (le_refl 1)).symm.trans ha5)
          · exact ((is_attackedF_eq (le_refl 1)).symm.trans ha6)
        · exact absurd h (by simp)
      · exact absurd h (by simp)
    · rw [castleQueenside_kSpot] at h
      split at h
      · split at h
        · have heq := List.mem_singleton.mp h
          simp [Move.mk.injEq, Spot.mk.injEq] at heq
        · exact absurd h (by simp)
      · exact absurd h (by simp)
  · rintro ⟨hcx, hrkcx, hrook, h5, h6, ha0, ha5, ha6⟩
    apply mem_positional_moves.mpr
    refine ⟨(kSpot who, ⟨who, Kind.k⟩),
      mem_positions.mpr ⟨(kSpot_valid who).1, (kSpot_valid who).2, hk, rfl⟩, ?_⟩
    unfold movesOfPiece
    rw [if_neg (by simp)]
    apply List.mem_append.mpr
    right
    rw [if_pos ⟨by simp, rfl, hcx, rfl⟩]
    apply List.mem_append.mpr
    left
    rw [castleKingside_kSpot]
    have e0 : (genF 1 bd who.other (some (kSpot who))).any
        (fun m' => m'.to_ == kSpot who) = false :=
      (is_attackedF_eq (le_refl 1)).trans ha0
    have e5 : (genF 1 bd who.other (some (⟨5, (kSpot who).r⟩ : Spot))).any
        (fun m' => m'.to_ == (⟨5, (kSpot who).r⟩ : Spot)) = false :=
      (is_attackedF_eq (le_refl 1)).trans ha5
    have e6 : (genF 1 bd who.other (some (⟨6, (kSpot who).r⟩ : Spot))).any
        (fun m' => m'.to_ == (⟨6, (kSpot who).r⟩ : Spot)) = false :=
      (is_attackedF_eq (le_refl 1)).trans ha6
    rw [if_pos (by simp [hrook, contains_eq_false_of_not_mem hrkcx, h5, h6, hrkcx])]
    rw [if_pos (by simp [e0, e5, e6])]
    exact List.mem_singleton.mpr rfl

theorem castle_queenside_iff (bd : Board) (who : Color)
    (hk : bd.piecemap (kSpot who) = some ⟨who, Kind.k⟩) :
    Move.mk (kSpot who) ⟨2, (kSpot who).r⟩ none ∈ bd.positional_moves who none ↔
      (kSpot who ∉ bd.castle_x ∧ ⟨0, (kSpot who).r⟩ ∉ bd.castle_x ∧
        (bd.piecemap ⟨0, (kSpot who).r⟩).any (fun pc => pc.kind == Kind.r) = true ∧
        bd.piecemap ⟨3, (kSpot who).r⟩ = none ∧ bd.piecemap ⟨2, (kSpot who).r⟩ = none ∧
        bd.piecemap ⟨1, (kSpot who).r⟩ = none ∧
        bd.is_attacked (kSpot who) who.other = false ∧
        bd.is_attacked ⟨3, (kSpot who).r⟩ who.other = false ∧
        bd.is_attacked ⟨2, (kSpot who).r⟩ who.other = false) := by
  constructor
  · intro hm
    rcases mem_gen_king_decomp hk hm rfl with ⟨dd, hdd, hray⟩ | ⟨hcx, h | h⟩
    · have hb := (king_ray_file_bound hdd hray).1
      simp at hb
    · rw [castleKingside_kSpot] at h
      split at h
      · split at h
        · have heq := List.mem_singleton.mp h
          simp [Move.mk.injEq, Spot.mk.injEq] at heq
        · exact absurd h (by simp)
      · exact absurd h (by simp)
    · rw [castleQueenside_kSpot] at h
      split at h
      · rename_i hc1
        split at h
        · rename_i hc2
          simp only [Bool.and_eq_true] at hc1
          obtain ⟨⟨⟨⟨hrook, hncx⟩, h3⟩, h2⟩, h1⟩ := hc1
          simp only [Bool.not_eq_true'] at hncx
          simp only [Bool.not_eq_true', Bool.or_eq_false_iff] at hc2
          obtain ⟨⟨ha0, ha3⟩, ha2⟩ := hc2
          refine ⟨hcx, not_mem_of_contains_eq_false hncx, hrook,
            Option.isNone_iff_eq_none.mp h3, Option.isNone_iff_eq_none.mp h2,
            Option.isNone_iff_eq_none.mp h1, ?_, ?_, ?_⟩
          · exact ((is_attackedF_eq (le_refl 1)).symm.trans ha0)
          · exact ((is_attackedF_eq (le_refl 1)).symm.trans ha3)
          · exact ((is_attackedF_eq (le_refl 1)).symm.trans ha2)
        · exact absurd h (by simp)
      · exact absurd h (by simp)
  · rintro ⟨hcx, hrkcx, hrook, h3, h2, h1, ha0, ha3, ha2⟩
    apply mem_positional_moves.mpr
    refine ⟨(kSpot who, ⟨who, Kind.k⟩),
      mem_positions.mpr ⟨(kSpot_valid who).1, (kSpot_valid who).2, hk, rfl⟩, ?_⟩
    unfold movesOfPiece
    rw [if_neg (by simp)]
    apply List.mem_append.mpr
    right
    rw [if_pos ⟨by simp, rfl, hcx, rfl⟩]
    apply List.mem_append.mpr
    right
    rw [castleQueenside_kSpot]
    have e0 : (genF 1 bd who.other (some (kSpot who))).any
        (fun m' => m'.to_ == kSpot who) = false :=
      (is_attackedF_eq (le_refl 1)).trans ha0
    have e3 : (genF 1 bd who.other (some (⟨3, (kSpot who).r⟩ : Spot))).any
        (fun m' => m'.to_ == (⟨3, (kSpot who).r⟩ : Spot)) = false :=
      (is_attackedF_eq (le_refl 1)).trans ha3
    have e2 : (genF 1 bd who.other (some (⟨2, (kSpot who).r⟩ : Spot))).any
        (fun m' => m'.to_ == (⟨2, (kSpot who).r⟩ : Spot)) = false :=
      (is_attackedF_eq (le_refl 1)).trans ha2
    rw [if_pos (by simp [hrook, contains_eq_false_of_not_mem hrkcx, h3, h2, h1, hrkcx])]
    rw [if_pos (by simp [e0, e3, e2])]
    exact List.mem_singleton.mpr rfl

/-- C5: on a board whose king of side `who` stands on its home square, the
generator (moves mode) yields the kingside / queenside castle move exactly
when: the king's and the relevant rook's home squares are not in the moved
set, the rook home square holds a rook (of either color — the source
checks only the kind), the squares strictly between king and rook are
empty, and none of the king's origin, transit and destination squares
(e/f/g kingside, e/d/c queenside) is attacked by the opponent. -/
theorem claim_C5 (bd : Board) (who : Color)
    (hk : bd.piecemap (kSpot who) = some ⟨who, Kind.k⟩) :
    (Move.mk (kSpot who) ⟨6, (kSpot who).r⟩ none ∈ bd.positional_moves who none ↔
      (kSpot who ∉ bd.castle_x ∧ ⟨7, (kSpot who).r⟩ ∉ bd.castle_x ∧
        (bd.piecemap ⟨7, (kSpot who).r⟩).any (fun pc => pc.kind == Kind.r) = true ∧
        bd.piecemap ⟨5, (kSpot who).r⟩ = none ∧ bd.piecemap ⟨6, (kSpot who).r⟩ = none ∧
        bd.is_attacked (kSpot who) who.other = false ∧
        bd.is_attacked ⟨5, (kSpot who).r⟩ who.other = false ∧
        bd.is_attacked ⟨6, (kSpot who).r⟩ who.other = false)) ∧
    (Move.mk (kSpot who) ⟨2, (kSpot who).r⟩ none ∈ bd.positional_moves who none ↔
      (kSpot who ∉ bd.castle_x ∧ ⟨0, (kSpot who).r⟩ ∉ bd.castle_x ∧
        (bd.piecemap ⟨0, (kSpot who).r⟩).any (fun pc => pc.kind == Kind.r) = true ∧
        bd.piecemap ⟨3, (kSpot who).r⟩ = none ∧ bd.piecemap ⟨2, (kSpot who).r⟩ = none ∧
        bd.piecemap ⟨1, (kSpot who).r⟩ = none ∧
        bd.is_attacked (kSpot who) who.other = false ∧
        bd.is_attacked ⟨3, (kSpot who).r⟩ who.other = false ∧
        bd.is_attacked ⟨2, (kSpot who).r⟩ who.other = false)) :=
  ⟨castle_kingside_iff bd who hk, castle_queenside_iff bd who hk⟩

/-- A castling-ready position: white king e1, rooks a1 and h1, black king
e8; everything between the rooks and king empty, nothing attacked. -/
def CastleBoard : Board :=
  { piecemap := fun s =>
      if s = ⟨4, 0⟩ then some ⟨.w, .k⟩
      else if s = ⟨0, 0⟩ then some ⟨.w, .r⟩
      else if s = ⟨7, 0⟩ then some ⟨.w, .r⟩
      else if s = ⟨4, 7⟩ then some ⟨.b, .k⟩
      else none
    enpassant := none
    castle_x := []
    history := [] }

theorem claim_C5_witness :
    Move.mk ⟨4, 0⟩ ⟨6, 0⟩ none ∈ CastleBoard.positional_moves Color.w none ∧
      Move.mk ⟨4, 0⟩ ⟨2, 0⟩ none ∈ CastleBoard.positional_moves Color.w none := by
  constructor
  · exact (claim_C5 CastleBoard Color.w (by decide)).1.mpr
      ⟨by decide, by decide, by decide, by decide, by decide, by decide, by decide, by decide⟩
  · exact (claim_C5 CastleBoard Color.w (by decide)).2.mpr
      ⟨by decide, by decide, by decide, by decide, by decide, by decide, by decide,
        by decide, by decide⟩

/-! ## Promotion completeness: uniqueness of the generating candidate -/

theorem mem_pawnDfMoves_to_file {bd : Board} {piece : Piece} {spot : Spot} {df : Int} {m : Move}
    (h : m ∈ pawnDfMoves bd piece spot df) : (m.to_.f : Int) = (spot.f : Int) + df := by
  simp only [pawnDfMoves] at h
  rcases hft : (Delta.mk df (pawnDr piece.color)).from_ spot with _ | spot2
  · simp only [hft] at h
    exact absurd h (by simp)
  · simp only [hft] at h
    by_cases hdf : df = 0
    · rw [if_pos hdf] at h
      split at h
      · rcases List.mem_cons.mp h with rfl | h
        · exact (from__spec hft).1
        · split at h
          · rcases hft2 : (Delta.mk df (pawnDr piece.color * 2)).from_ spot with _ | spot3
            · simp only [hft2] at h
              exact absurd h (by simp)
            · simp only [hft2] at h
              split at h
              · rcases List.mem_singleton.mp h with rfl
                exact (from__spec hft2).1
              · exact absurd h (by simp)
          · exact absurd h (by simp)
      · exact absurd h (by simp)
    · rw [if_neg hdf] at h
      split at h
      · rcases List.mem_singleton.mp h with rfl
        exact (from__spec hft).1
      · exact absurd h (by simp)

theorem pawnDfMoves_count_le_one {bd : Board} {piece : Piece} {spot : Spot} {df : Int}
    (c : Move) : (pawnDfMoves bd piece spot df).count c ≤ 1 := by
  simp only [pawnDfMoves]
  rcases hft : (Delta.mk df (pawnDr piece.color)).from_ spot with _ | spot2
  · simp [hft]
  · simp only [hft]
    by_cases hdf : df = 0
    · rw [if_pos hdf]
      split
      · rcases hft2 : (Delta.mk df (pawnDr piece.color * 2)).from_ spot with _ | spot3
        · simp only [hft2]
          split
          · apply List.count_le_length
          · apply List.count_le_length
        · simp only [hft2]
          have hne : ¬spot2 = spot3 := by
            have h1 := (from__spec hft).2
            have h2 := (from__spec hft2).2
            intro he
            rw [he] at h1
            cases hcol : piece.color <;>
              (rw [hcol] at h1 h2; simp [pawnDr] at h1 h2; omega)
          have hmne : ¬Move.mk spot spot2 none = Move.mk spot spot3 none := by
            simp [Move.mk.injEq, hne]
          split
          · split
            · rw [List.count_cons, List.count_cons, List.count_nil]
              by_cases hc1 : Move.mk spot spot2 none = c <;>
                by_cases hc2 : Move.mk spot spot3 none = c
              · exact absurd (hc1.trans hc2.symm) hmne
              all_goals simp [hc1, hc2]
            · apply List.count_le_length
          · apply List.count_le_length
      · simp
    · rw [if_neg hdf]
      split
      · apply List.count_le_length
      · simp

theorem movesOfPiece_pawn_count_le_one {bd : Board} {plynow plyother : Color}
    {attacking : Option Spot} {isAtt : Spot → Color → Bool} {spot : Spot} {piece : Piece}
    (hk : piece.kind = Kind.p) (c : Move) :
    (movesOfPiece bd plynow plyother attacking isAtt spot piece).count c ≤ 1 := by
  unfold movesOfPiece
  rw [if_pos hk]
  rw [List.count_append, List.count_append]
  have hA := @pawnDfMoves_count_le_one bd piece spot (-1) c
  have hB := @pawnDfMoves_count_le_one bd piece spot 0 c
  have hC := @pawnDfMoves_count_le_one bd piece spot 1 c
  have hAB : ¬(0 < (pawnDfMoves bd piece spot (-1)).count c ∧
      0 < (pawnDfMoves bd piece spot 0).count c) := by
    rintro ⟨ha, hb⟩
    have hf1 := mem_pawnDfMoves_to_file (List.count_pos_iff.mp ha)
    have hf2 := mem_pawnDfMoves_to_file (List.count_pos_iff.mp hb)
    omega
  have hAC : ¬(0 < (pawnDfMoves bd piece spot (-1)).count c ∧
      0 < (pawnDfMoves bd piece spot 1).count c) := by
    rintro ⟨ha, hb⟩
    have hf1 := mem_pawnDfMoves_to_file (List.count_pos_iff.mp ha)
    have hf2 := mem_pawnDfMoves_to_file (List.count_pos_iff.mp hb)
    omega
  have hBC : ¬(0 < (pawnDfMoves bd piece spot 0).count c ∧
      0 < (pawnDfMoves bd piece spot 1).count c) := by
    rintro ⟨ha, hb⟩
    have hf1 := mem_pawnDfMoves_to_file (List.count_pos_iff.mp ha)
    have hf2 := mem_pawnDfMoves_to_file (List.count_pos_iff.mp hb)
    omega
  omega

theorem countP_flatMap {α β : Type} (p : β → Bool) (f : α → List β) (l : List α) :
    (l.flatMap f).countP p = (l.map fun a => (f a).countP p).sum := by
  induction l with
  | nil => rfl
  | cons a t ih => simp [List.flatMap_cons, List.countP_append, ih]

theorem count_flatMap {α β : Type} [BEq β] (c : β) (f : α → List β) (l : List α) :
    (l.flatMap f).count c = (l.map fun a => (f a).count c).sum := by
  unfold List.count
  exact countP_flatMap _ f l

theorem sum_le_one_of_nodup_key {l : List (Spot × Piece)} {g : Spot × Piece → Nat}
    (hnd : (l.map Prod.fst).Nodup) (key : Spot)
    (hz : ∀ sp ∈ l, ¬sp.1 = key → g sp = 0)
    (hone : ∀ sp ∈ l, sp.1 = key → g sp ≤ 1) :
    (l.map g).sum ≤ 1 := by
  induction l with
  | nil => simp
  | cons a t ih =>
    rw [List.map_cons, List.sum_cons]
    rw [List.map_cons] at hnd
    rcases List.nodup_cons.mp hnd with ⟨hna, hndt⟩
    by_cases ha : a.1 = key
    · have hts : (t.map g).sum = 0 := by
        apply List.sum_eq_zero
        intro x hx
        rcases List.mem_map.mp hx with ⟨sp, hsp, rfl⟩
        apply hz sp (List.mem_cons_of_mem a hsp)
        intro he
        apply hna
        rw [ha, ← he]
        exact List.mem_map_of_mem Prod.fst hsp
      have hone' := hone a (List.mem_cons_self a t) ha
      omega
    · rw [hz a (List.mem_cons_self a t) ha]
      rw [Nat.zero_add]
      exact ih hndt (fun sp hsp h => hz sp (List.mem_cons_of_mem a hsp) h)
        (fun sp hsp h => hone sp (List.mem_cons_of_mem a hsp) h)

theorem any_pawn_elim {bd : Board} {s : Spot}
    (hp : (bd.piecemap s).any (fun pc => pc.kind == Kind.p) = true) :
    ∃ pcw, bd.piecemap s = some pcw ∧ pcw.kind = Kind.p := by
  rcases hpm : bd.piecemap s with _ | pcw
  · rw [hpm] at hp
    exact absurd hp (by simp)
  · rw [hpm] at hp
    simp at hp
    exact ⟨pcw, rfl, hp⟩

theorem gen_count_eq_one {bd : Board} {who : Color} {c : Move}
    (hc : c ∈ bd.positional_moves who none)
    (hp : (bd.piecemap c.from_).any (fun pc => pc.kind == Kind.p) = true) :
    (bd.positional_moves who none).count c = 1 := by
  have hle : (bd.positional_moves who none).count c ≤ 1 := by
    show (positionalMovesCore bd who who.other none fun s cc =>
      (genF 1 bd cc (some s)).any fun m' => m'.to_ == s).count c ≤ 1
    unfold positionalMovesCore
    rw [count_flatMap]
    rcases any_pawn_elim hp with ⟨pcw, hpm, hkind⟩
    apply sum_le_one_of_nodup_key positions_fst_nodup c.from_
    · intro sp hsp hne
      apply List.count_eq_zero_of_not_mem
      intro hmm
      exact hne ((mem_movesOfPiece_shape hmm).1 ▸ rfl)
    · rintro ⟨s, pc⟩ hsp hkey
      simp only at hkey
      subst hkey
      rcases mem_positions.mp hsp with ⟨-, -, hpm', -⟩
      rw [hpm] at hpm'
      injection hpm' with hpm'
      rw [hpm'] at hkind
      exact movesOfPiece_pawn_count_le_one hkind c
  have hge := List.count_pos_iff.mpr hc
  omega

theorem sum_ite_count {α : Type} [DecidableEq α] (l : List α) (c : α) (n : Nat) :
    (l.map fun x => if x = c then n else 0).sum = n * l.count c := by
  induction l with
  | nil => simp
  | cons a t ih =>
    rw [List.map_cons, List.sum_cons, ih, List.count_cons]
    by_cases ha : a = c
    · simp [ha]
      ring
    · simp [ha]

/-- C6: a check-safe pseudo-legal pawn move to the farthest rank appears in
the legal-move set as exactly four moves with that origin and destination,
one per promotion kind (q, b, n, r in generation order), and the
promotion-less move with that origin and destination is absent. -/
theorem claim_C6 (bd : Board) (c : Move)
    (hc : c ∈ bd.positional_moves bd.who none)
    (hp : (bd.piecemap c.from_).any (fun pc => pc.kind == Kind.p) = true)
    (hlast : c.to_.r = 0 ∨ c.to_.r = 7)
    (hsafe : bd.checkSafe c = true) :
    (Move.mk c.from_ c.to_ (some Kind.q) ∈ bd.legal_moves ∧
      Move.mk c.from_ c.to_ (some Kind.b) ∈ bd.legal_moves ∧
      Move.mk c.from_ c.to_ (some Kind.n) ∈ bd.legal_moves ∧
      Move.mk c.from_ c.to_ (some Kind.r) ∈ bd.legal_moves) ∧
    Move.mk c.from_ c.to_ none ∉ bd.legal_moves ∧
    (bd.legal_moves.countP fun m => m.from_ == c.from_ && m.to_ == c.to_) = 4 := by
  rcases mem_positional_moves_shape hc with ⟨pc0, -, -, hpn⟩
  have hguard : ((bd.piecemap c.from_).any (fun pc => pc.kind == Kind.p) &&
      (c.to_.r == 0 || c.to_.r == 7)) = true := by
    rcases hlast with h | h <;> simp [hp, h]
  have hexp : promoteExpand bd c =
      [Move.mk c.from_ c.to_ (some Kind.q), Move.mk c.from_ c.to_ (some Kind.b),
        Move.mk c.from_ c.to_ (some Kind.n), Move.mk c.from_ c.to_ (some Kind.r)] := by
    unfold promoteExpand
    rw [if_pos hguard]
  refine ⟨⟨?_, ?_, ?_, ?_⟩, ?_, ?_⟩
  · exact mem_legal_moves.mpr ⟨c, hc, hsafe, by rw [hexp]; simp⟩
  · exact mem_legal_moves.mpr ⟨c, hc, hsafe, by rw [hexp]; simp⟩
  · exact mem_legal_moves.mpr ⟨c, hc, hsafe, by rw [hexp]; simp⟩
  · exact mem_legal_moves.mpr ⟨c, hc, hsafe, by rw [hexp]; simp⟩
  · intro hmem
    rcases mem_legal_moves.mp hmem with ⟨c', hc', hcs', hex'⟩
    rcases mem_promoteExpand_shape hex' with ⟨hf, ht⟩
    rcases mem_positional_moves_shape hc' with ⟨pc', -, -, hpn'⟩
    have hceq : c' = c := move_eq_of_fields hf.symm ht.symm (by rw [hpn', hpn])
    rw [hceq] at hex'
    rw [hexp] at hex'
    simp [Move.mk.injEq] at hex'
  · have hcount1 := gen_count_eq_one hc hp
    unfold Board.legal_moves
    rw [countP_flatMap]
    have hterm : ∀ c' ∈ bd.positional_moves bd.who none,
        ((if bd.checkSafe c' then promoteExpand bd c' else []).countP
          fun m => m.from_ == c.from_ && m.to_ == c.to_) = if c' = c then 4 else 0 := by
      intro c' hc'
      by_cases heq : c' = c
      · subst heq
        rw [if_pos rfl, if_pos hsafe, hexp]
        simp [List.countP_cons, List.countP_nil]
      · rw [if_neg heq]
        apply List.countP_eq_zero.mpr
        intro m hm
        split at hm
        · rcases mem_promoteExpand_shape hm with ⟨hf, ht⟩
          rcases mem_positional_moves_shape hc' with ⟨pcx, -, -, hpnx⟩
          intro hpm
          simp only [Bool.and_eq_true, beq_iff_eq] at hpm
          exact heq (move_eq_of_fields (hf.symm.trans hpm.1) (ht.symm.trans hpm.2)
            (by rw [hpnx, hpn]))
        · exact absurd hm (by simp)
    rw [List.map_congr_left hterm, sum_ite_count, hcount1]

/-- A promotion-ready position: white pawn a7, white king e1, black king
h8, white to move. -/
def PromoBoard : Board :=
  { piecemap := fun s =>
      if s = ⟨0, 6⟩ then some ⟨.w, .p⟩
      else if s = ⟨4, 0⟩ then some ⟨.w, .k⟩
      else if s = ⟨7, 7⟩ then some ⟨.b, .k⟩
      else none
    enpassant := none
    castle_x := []
    history := [] }

theorem claim_C6_witness :
    Move.mk ⟨0, 6⟩ ⟨0, 7⟩ (some Kind.q) ∈ PromoBoard.legal_moves ∧
      Move.mk ⟨0, 6⟩ ⟨0, 7⟩ none ∉ PromoBoard.legal_moves := by
  have h := claim_C6 PromoBoard (Move.mk ⟨0, 6⟩ ⟨0, 7⟩ none)
    (by decide) (by decide) (by decide) (by decide)
  exact ⟨h.1.1, h.2.1⟩

/-! ## Totality of `make_move` on generated moves -/

/-- The en-passant well-formedness every reachable Position enjoys: the
stored capture square holds an opponent piece. -/
def epInvariant (bd : Board) : Bool :=
  match bd.enpassant with
  | none => true
  | some eppair => (bd.piecemap eppair.2).any fun pc => pc.color == bd.who.other

theorem pmDel_isSome {pm : PieceMap} {s : Spot} (h : (pm s).isSome = true) :
    (pmDel pm s).isSome = true := by
  unfold pmDel
  rcases hpm : pm s with _ | pc
  · rw [hpm] at h
    exact absurd h (by simp)
  · simp [hpm]

theorem pmDel_set_isSome {pm : PieceMap} {t f : Spot} {pc : Piece}
    (h : f = t ∨ (pm f).isSome = true) : (pmDel (pmSet pm t pc) f).isSome = true := by
  unfold pmDel pmSet
  by_cases hft : f = t
  · simp [hft]
  · simp only [if_neg hft]
    rcases h with rfl | h
    · exact absurd rfl hft
    · rcases hpm : pm f with _ | pc2
      · rw [hpm] at h
        exact absurd h (by simp)
      · simp [hpm]

theorem option_any_isSome {o : Option Piece} {p : Piece → Bool} (h : o.any p = true) :
    o.isSome = true := by
  rcases o with _ | pc
  · exact absurd h (by simp)
  · simp

theorem mem_castleKingside_kSpot_inv {bd : Board} {plyother : Color}
    {isAtt : Spot → Color → Bool} {who : Color} {m : Move}
    (h : m ∈ castleKingside bd plyother isAtt (kSpot who)) :
    m = Move.mk (kSpot who) ⟨6, (kSpot who).r⟩ none ∧
      (bd.piecemap ⟨7, (kSpot who).r⟩).any (fun pc => pc.kind == Kind.r) = true := by
  rw [castleKingside_kSpot] at h
  split at h
  · rename_i hc1
    split at h
    · rcases List.mem_singleton.mp h with rfl
      simp only [Bool.and_eq_true] at hc1
      exact ⟨rfl, hc1.1.1.1⟩
    · exact absurd h (by simp)
  · exact absurd h (by simp)

theorem mem_castleQueenside_kSpot_inv {bd : Board} {plyother : Color}
    {isAtt : Spot → Color → Bool} {who : Color} {m : Move}
    (h : m ∈ castleQueenside bd plyother isAtt (kSpot who)) :
    m = Move.mk (kSpot who) ⟨2, (kSpot who).r⟩ none ∧
      (bd.piecemap ⟨0, (kSpot who).r⟩).any (fun pc => pc.kind == Kind.r) = true := by
  rw [castleQueenside_kSpot] at h
  split at h
  · rename_i hc1
    split at h
    · rcases List.mem_singleton.mp h with rfl
      simp only [Bool.and_eq_true] at hc1
      exact ⟨rfl, hc1.1.1.1.1⟩
    · exact absurd h (by simp)
  · exact absurd h (by simp)

theorem gen_king_rook_present {bd : Board} {who : Color} {t0 : Spot}
    (hk : bd.piecemap (kSpot who) = some ⟨who, Kind.k⟩)
    (hc : Move.mk (kSpot who) t0 none ∈ bd.positional_moves who none) :
    (t0.f = 6 → t0.r = (kSpot who).r ∧ (bd.piecemap ⟨7, t0.r⟩).isSome = true) ∧
    (t0.f = 2 → t0.r = (kSpot who).r ∧ (bd.piecemap ⟨0, t0.r⟩).isSome = true) := by
  rcases mem_gen_king_decomp hk hc rfl with ⟨dd, hdd, hray⟩ | ⟨-, h | h⟩
  · have hb := king_ray_file_bound hdd hray
    constructor
    · intro h6
      rw [show (Move.mk (kSpot who) t0 none).to_.f = t0.f from rfl, h6] at hb
      omega
    · intro h2
      rw [show (Move.mk (kSpot who) t0 none).to_.f = t0.f from rfl, h2] at hb
      omega
  · rcases mem_castleKingside_kSpot_inv h with ⟨heq, hrook⟩
    have ht0 : t0 = ⟨6, (kSpot who).r⟩ := by
      injection heq with h1 h2 h3
    constructor
    · intro h6
      subst ht0
      exact ⟨rfl, option_any_isSome hrook⟩
    · intro h2
      rw [ht0] at h2
      simp at h2
  · rcases mem_castleQueenside_kSpot_inv h with ⟨heq, hrook⟩
    have ht0 : t0 = ⟨2, (kSpot who).r⟩ := by
      injection heq with h1 h2 h3
    constructor
    · intro h6
      rw [ht0] at h6
      simp at h6
    · intro h2
      subst ht0
      exact ⟨rfl, option_any_isSome hrook⟩

theorem make_move_isSome_aux {bd : Board} {f0 t0 : Spot} {pr : Option Kind} {ig : Bool}
    (hep : epInvariant bd = true)
    (hc : Move.mk f0 t0 none ∈ bd.positional_moves bd.who none)
    (hpr : (¬ig = true ∧ (bd.piecemap f0).any (fun pc => pc.kind == Kind.p) = true ∧
      (t0.r = 0 ∨ t0.r = 7)) → pr.isSome = true) :
    (bd.make_move (Move.mk f0 t0 pr) ig).isSome = true := by
  rcases mem_positional_moves_shape hc with ⟨pc0, hpm0, hcol0, -⟩
  have hpm0' : bd.piecemap f0 = some pc0 := hpm0
  have hcol0' : pc0.color = bd.who := hcol0
  unfold Board.make_move
  dsimp only
  rw [hpm0']
  dsimp only
  by_cases hcast : pc0.kind = Kind.k ∧ f0 = kSpot bd.who
  · -- king on its home square: the en-passant and promotion branches are off
    clear hpr
    rcases pc0 with ⟨pcC, pcK⟩
    have hkk : pcK = Kind.k := hcast.1
    have hcc : pcC = bd.who := hcol0'
    subst hkk
    subst hcc
    have hf0 : f0 = kSpot bd.who := hcast.2
    subst hf0
    have hk : bd.piecemap (kSpot bd.who) = some ⟨bd.who, Kind.k⟩ := hpm0'
    have hrp := gen_king_rook_present hk hc
    rw [if_pos hcast]
    have hepskip : ∀ pm1 : PieceMap,
        (match bd.enpassant with
          | some eppair =>
            if (Piece.mk bd.who Kind.k).kind = Kind.p ∧ t0 = eppair.1 then
              pmDel pm1 eppair.2
            else some pm1
          | none => some pm1) = some pm1 := by
      intro pm1
      rcases bd.enpassant with _ | eppair
      · rfl
      · dsimp only
        rw [if_neg]
        rintro ⟨hx, -⟩
        exact absurd hx (by simp)
    have hpromoskip :
        (if ¬ig = true ∧ Kind.k = Kind.p ∧ (t0.r = 0 ∨ t0.r = 7) then
          match pr with
          | some pk => some (Piece.mk bd.who pk)
          | none => none
        else some (Piece.mk bd.who Kind.k)) = some (Piece.mk bd.who Kind.k) := by
      rw [if_neg]
      rintro ⟨-, hx, -⟩
      exact absurd hx (by simp)
    by_cases h6 : t0.f = 6
    · rw [if_pos h6]
      have hsome := (hrp.1 h6).2
      rcases hrook : bd.piecemap ⟨7, t0.r⟩ with _ | rk
      · rw [hrook] at hsome
        exact absurd hsome (by simp)
      · dsimp only
        rw [hepskip]
        dsimp only
        rw [hpromoskip]
        dsimp only
        have hdel : (pmDel (pmSet (pmErase (pmSet bd.piecemap ⟨5, t0.r⟩ rk) ⟨7, t0.r⟩)
            t0 ⟨bd.who, Kind.k⟩) (kSpot bd.who)).isSome = true := by
          apply pmDel_set_isSome
          right
          unfold pmErase pmSet
          rw [if_neg, if_neg, hpm0']
          · simp
          · intro hx
            have := congrArg Spot.f hx
            rw [kSpot_f] at this
            simp at this
          · intro hx
            have := congrArg Spot.f hx
            rw [kSpot_f] at this
            simp at this
        rcases hdel2 : pmDel (pmSet (pmErase (pmSet bd.piecemap ⟨5, t0.r⟩ rk) ⟨7, t0.r⟩)
            t0 ⟨bd.who, Kind.k⟩) (kSpot bd.who) with _ | pm3
        · rw [hdel2] at hdel
          exact absurd hdel (by simp)
        · simp
    · rw [if_neg h6]
      by_cases h2 : t0.f = 2
      · rw [if_pos h2]
        have hsome := (hrp.2 h2).2
        rcases hrook : bd.piecemap ⟨0, t0.r⟩ with _ | rk
        · rw [hrook] at hsome
          exact absurd hsome (by simp)
        · dsimp only
          rw [hepskip]
          dsimp only
          rw [hpromoskip]
          dsimp only
          have hdel : (pmDel (pmSet (pmErase (pmSet bd.piecemap ⟨3, t0.r⟩ rk) ⟨0, t0.r⟩)
              t0 ⟨bd.who, Kind.k⟩) (kSpot bd.who)).isSome = true := by
            apply pmDel_set_isSome
            right
            unfold pmErase pmSet
            rw [if_neg, if_neg, hpm0']
            · simp
            · intro hx
              have := congrArg Spot.f hx
              rw [kSpot_f] at this
              simp at this
            · intro hx
              have := congrArg Spot.f hx
              rw [kSpot_f] at this
              simp at this
          rcases hdel2 : pmDel (pmSet (pmErase (pmSet bd.piecemap ⟨3, t0.r⟩ rk) ⟨0, t0.r⟩)
              t0 ⟨bd.who, Kind.k⟩) (kSpot bd.who) with _ | pm3
          · rw [hdel2] at hdel
            exact absurd hdel (by simp)
          · simp
      · rw [if_neg h2]
        dsimp only
        rw [hepskip]
        dsimp only
        rw [hpromoskip]
        dsimp only
        have hdel : (pmDel (pmSet bd.piecemap t0 ⟨bd.who, Kind.k⟩) (kSpot bd.who)).isSome
            = true := by
          apply pmDel_set_isSome
          right
          rw [hpm0']
          simp
        rcases hdel2 : pmDel (pmSet bd.piecemap t0 ⟨bd.who, Kind.k⟩) (kSpot bd.who)
            with _ | pm3
        · rw [hdel2] at hdel
          exact absurd hdel (by simp)
        · simp
  · -- not the castling-relocation case
    rw [if_neg hcast]
    dsimp only
    have hstep2 : ∃ pm2,
        (match bd.enpassant with
          | some eppair =>
            if pc0.kind = Kind.p ∧ t0 = eppair.1 then
              pmDel bd.piecemap eppair.2
            else some bd.piecemap
          | none => some bd.piecemap) = some pm2 ∧ pm2 f0 = some pc0 := by
      rcases hen : bd.enpassant with _ | eppair
      · exact ⟨bd.piecemap, rfl, hpm0'⟩
      · have hep' : (bd.piecemap eppair.2).any (fun pc => pc.color == bd.who.other)
            = true := by
          unfold epInvariant at hep
          rw [hen] at hep
          exact hep
        by_cases hcond : pc0.kind = Kind.p ∧ t0 = eppair.1
        · rcases hcap : bd.piecemap eppair.2 with _ | pcc
          · rw [hcap] at hep'
            exact absurd hep' (by simp)
          · rw [hcap] at hep'
            simp only [Option.any_some, beq_iff_eq] at hep'
            have hfne : ¬f0 = eppair.2 := by
              intro hx
              rw [hx, hcap] at hpm0'
              injection hpm0' with hpm0'
              rw [← hpm0'] at hcol0'
              rw [hep'] at hcol0'
              cases hw : bd.who <;> rw [hw] at hcol0' <;> simp [Color.other] at hcol0'
            refine ⟨pmErase bd.piecemap eppair.2, ?_, ?_⟩
            · dsimp only
              rw [if_pos hcond]
              unfold pmDel
              rw [hcap]
            · unfold pmErase
              rw [if_neg hfne, hpm0']
        · refine ⟨bd.piecemap, ?_, hpm0'⟩
          dsimp only
          rw [if_neg hcond]
    rcases hstep2 with ⟨pm2, hpm2eq, hpm2f⟩
    rw [hpm2eq]
    dsimp only
    have hstep3 : ∃ piece,
        (if ¬ig = true ∧ pc0.kind = Kind.p ∧ (t0.r = 0 ∨ t0.r = 7) then
          match pr with
          | some pk => some (Piece.mk pc0.color pk)
          | none => none
        else some pc0) = some piece := by
      by_cases hcond : ¬ig = true ∧ pc0.kind = Kind.p ∧ (t0.r = 0 ∨ t0.r = 7)
      · rw [if_pos hcond]
        have hprs := hpr ⟨hcond.1, by rw [hpm0']; simp [hcond.2.1], hcond.2.2⟩
        rcases hpr2 : pr with _ | pk
        · rw [hpr2] at hprs
          exact absurd hprs (by simp)
        · exact ⟨⟨pc0.color, pk⟩, rfl⟩
      · rw [if_neg hcond]
        exact ⟨pc0, rfl⟩
    rcases hstep3 with ⟨piece, hpieceeq⟩
    rw [hpieceeq]
    dsimp only
    have hdel : (pmDel (pmSet pm2 t0 piece) f0).isSome = true := by
      apply pmDel_set_isSome
      right
      rw [hpm2f]
      simp
    rcases hdel2 : pmDel (pmSet pm2 t0 piece) f0 with _ | pm3
    · rw [hdel2] at hdel
      exact absurd hdel (by simp)
    · simp

/-- Apply a list of moves in sequence with `make_move` (default
`ignore_promote = False`), failing if any application fails. -/
def applyMoves : Board → List Move → Option Board
  | bd, [] => some bd
  | bd, m :: ms =>
    match bd.make_move m false with
    | some bd2 => applyMoves bd2 ms
    | none => none

/-- Check that each move of the list is a member of `legal_moves` of the
board it is applied to, i.e. that the final board is reachable. -/
def chainLegal : Board → List Move → Bool
  | _, [] => true
  | bd, m :: ms =>
    bd.legal_moves.contains m &&
      (match bd.make_move m false with
        | some bd2 => chainLegal bd2 ms
        | none => false)

/-- A legal game fragment: 1. a4 b5 2. axb5 h6 3. b6 h5 4. bxa7 h4,
after which White (to move) has the pseudo-legal pawn capture a7xb8. -/
def promoChain : List Move :=
  [Move.mk ⟨0, 1⟩ ⟨0, 3⟩ none, Move.mk ⟨1, 6⟩ ⟨1, 4⟩ none,
   Move.mk ⟨0, 3⟩ ⟨1, 4⟩ none, Move.mk ⟨7, 6⟩ ⟨7, 5⟩ none,
   Move.mk ⟨1, 4⟩ ⟨1, 5⟩ none, Move.mk ⟨7, 5⟩ ⟨7, 4⟩ none,
   Move.mk ⟨1, 5⟩ ⟨0, 6⟩ none, Move.mk ⟨7, 4⟩ ⟨7, 3⟩ none]

/-- C4 counterexample: `make_move` is **not** total on pseudo-legal moves
with the default `ignore_promote=False`.  The position after the legal
chain 1. a4 b5 2. axb5 h6 3. b6 h5 4. bxa7 h4 is reachable from the
initial board; there the pawn capture a7xb8 (file 0 rank 6 → file 1
rank 7, no promotion component) is yielded by the pseudo-legal generator
for the side to move, yet `make_move` on it fails: the Python source
evaluates `promote[0]` on the empty slice `fromto[2:3]` and raises
`IndexError`, modelled here by the applier returning `none`. -/
theorem claim_C4_counterexample :
    chainLegal Board.default_board promoChain = true ∧
    ((applyMoves Board.default_board promoChain).any fun bd2 =>
      (bd2.positional_moves bd2.who none).contains (Move.mk ⟨0, 6⟩ ⟨1, 7⟩ none) &&
      (bd2.make_move (Move.mk ⟨0, 6⟩ ⟨1, 7⟩ none) false).isNone) = true := by
  constructor <;> decide

/-- C4 (amended): on any board whose en-passant record is coherent (the
recorded capture square holds an opponent piece — an invariant of all
reachable positions), `make_move` succeeds on every pseudo-legal move of
the side to move when `ignore_promote=True`, and on every move of the
legal-move set with the default `ignore_promote=False`; with the default
flag it fails precisely on promotion-reaching pseudo-legal candidates
that carry no promotion component (see the counterexample). -/
theorem claim_C4 (bd : Board) (hep : epInvariant bd = true) :
    (∀ c ∈ bd.positional_moves bd.who none, (bd.make_move c true).isSome = true) ∧
    (∀ m ∈ bd.legal_moves, (bd.make_move m false).isSome = true) := by
  constructor
  · intro c hc
    obtain ⟨-, -, -, hcp⟩ := mem_positional_moves_shape hc
    have hceq : Move.mk c.from_ c.to_ none = c := by
      rw [← hcp]
    rw [← hceq] at hc ⊢
    exact make_move_isSome_aux hep hc (fun h => absurd rfl h.1)
  · intro m hm
    rcases mem_legal_moves.mp hm with ⟨c, hcgen, -, hpe⟩
    rcases mem_promoteExpand_shape hpe with ⟨hf, ht⟩
    obtain ⟨-, -, -, hcp⟩ := mem_positional_moves_shape hcgen
    have hceq : Move.mk m.from_ m.to_ none = c := by
      rw [hf, ht, ← hcp]
    rw [← hceq] at hcgen
    have hpr : (¬false = true ∧
        (bd.piecemap m.from_).any (fun pc => pc.kind == Kind.p) = true ∧
        (m.to_.r = 0 ∨ m.to_.r = 7)) → m.promote.isSome = true := by
      rintro ⟨-, hpawn, hr⟩
      have hcond : (((bd.piecemap c.from_).any fun pc => pc.kind == Kind.p) &&
          (c.to_.r == 0 || c.to_.r == 7)) = true := by
        rw [← hf, ← ht, hpawn]
        rcases hr with h | h <;> rw [h] <;> rfl
      unfold promoteExpand at hpe
      rw [if_pos hcond] at hpe
      simp only [List.mem_cons, List.not_mem_nil, or_false] at hpe
      rcases hpe with h | h | h | h <;> rw [h] <;> rfl
    exact make_move_isSome_aux hep hcgen hpr

theorem claim_C4_witness :
    epInvariant Board.default_board = true ∧
    Move.mk ⟨4, 1⟩ ⟨4, 3⟩ none ∈
      Board.default_board.positional_moves Board.default_board.who none ∧
    (Board.default_board.make_move (Move.mk ⟨4, 1⟩ ⟨4, 3⟩ none) true).isSome = true :=
  ⟨rfl, by decide,
    (claim_C4 Board.default_board rfl).1 (Move.mk ⟨4, 1⟩ ⟨4, 3⟩ none) (by decide)⟩
